import Mathlib

/-!
# Verification of the long/short portfolio price-cache and analytics engine

This file is a shallow embedding, in Lean 4, of the core of
`portfolio_simulator/portfolio_engine.py`: the Python dictionaries that hold
the price cache, the update orchestrator (`update_price_data`), the cache
merge, the save path (`_save_cache`), the rate limiter (`_rate_limit` /
`_fetch_ticker_data`), and the analytics pipeline
(`calculate_position_returns`, `calculate_portfolio_timeseries`, and the
drawdown part of `calculate_metrics`).

Conventions of the embedding:
* Python `dict` objects are modelled as insertion-ordered association lists
  (`List (String × α)`) with first-match lookup; Python dictionaries have
  unique keys, so where a property needs that invariant it is an explicit
  hypothesis.
* Dates and tickers are `String`s.  Python compares `str` values
  lexicographically by code point; `lexLt` below is that order, written as a
  structurally recursive boolean function so that concrete instances reduce.
  For ISO `YYYY-MM-DD` dates this order coincides with chronological order,
  which is why the Python code (and `pd.to_datetime` reindexing) agree.
* Prices and returns are `ℚ` (the Python code uses binary floats; the claims
  under study are about exact arithmetic identities and set membership, not
  about rounding error, and display-only `round(x, 2)` calls are elided).
* Fallible Python code is embedded in `Except PyErr`; an uncaught Python
  exception is `Except.error`.
-/

/-! ## Definitions: lexicographic string order (Python `str` comparison) -/

/-- Lexicographic strict order on char lists, by code point, as Python
compares strings. -/
def lexLt : List Char → List Char → Bool
  | [], [] => false
  | [], _ :: _ => true
  | _ :: _, [] => false
  | a :: as, b :: bs =>
      if a < b then true else if b < a then false else lexLt as bs

/-- Python `a < b` on strings. -/
def strLt (a b : String) : Bool := lexLt a.data b.data

/-- Python `a <= b` (equivalently `a >= b` flipped) on strings. -/
def strLe (a b : String) : Bool := ! strLt b a

/-- Python `max(keys)` on a nonempty collection: the fold keeps the current
value on ties, as `max` does. -/
def pyMax (k : String) (ks : List String) : String :=
  ks.foldl (fun a b => if strLt a b then b else a) k

/-! ## Definitions: Python dictionaries as association lists -/

/-- First-match lookup in an insertion-ordered association list; `m[k]` /
`m.get(k)` on a Python dict (whose keys are unique, making first-match
unambiguous). -/
def lookupD {α : Type} : List (String × α) → String → Option α
  | [], _ => none
  | p :: ps, k => if p.1 = k then some p.2 else lookupD ps k

/-- Python `k in m` on a dict. -/
def hasKey {α : Type} : List (String × α) → String → Bool
  | [], _ => false
  | p :: ps, k => if p.1 = k then true else hasKey ps k

/-- Python `m[k] = v` on a dict: overwrite in place if the key exists,
append otherwise. -/
def dictInsert {α : Type} (m : List (String × α)) (k : String) (v : α) :
    List (String × α) :=
  if hasKey m k then m.map (fun p => if p.1 = k then (k, v) else p)
  else m ++ [(k, v)]

/-- Python `old.update(new)`: set every key of `new` into `old`, in `new`'s
iteration order. -/
def dictUpdate {α : Type} (old new : List (String × α)) : List (String × α) :=
  new.foldl (fun m p => dictInsert m p.1 p.2) old

/-- Insertion into a list sorted ascending by `key` (stable). -/
def insertSorted {α : Type} (key : α → String) (p : α) : List α → List α
  | [] => [p]
  | q :: qs => if strLe (key p) (key q) then p :: q :: qs else q :: insertSorted key p qs

/-- Stable sort ascending by `key`; the embedding of Python `sorted(...)` and
pandas `Series.sort_index()` (any correct sort is observationally the same,
keys being unique wherever the code sorts). -/
def sortByKey {α : Type} (key : α → String) : List α → List α
  | [] => []
  | p :: ps => insertSorted key p (sortByKey key ps)

/-! ## Definitions: data model of the engine -/

/-- A cached price series: a Python dict from ISO date to closing price. -/
abbrev Ser := List (String × ℚ)

/-- The price store `self.price_cache`: ticker → (date → price). -/
abbrev Cache := List (String × Ser)

/-- Python exceptions the embedded code can raise. -/
inductive PyErr
  | valueError
  | callbackError (msg : String)
  | ioError (msg : String)
deriving DecidableEq

deriving instance DecidableEq for Except

/-- The `results` dict built by `update_price_data` (lines 163-167). -/
structure UpdateResults where
  updated : List String
  failed : List String
  skipped : List String
deriving DecidableEq

/-- Which of the three result lists one ticker lands in. -/
inductive TickerOutcome
  | updated
  | failed
  | skipped
deriving DecidableEq

/-! ## Definitions: update orchestrator (`update_price_data`, lines 155-208) -/

/-- Merge freshly fetched prices into the store (lines 196-200):
`if ticker not in self.price_cache: self.price_cache[ticker] = {}` followed by
`self.price_cache[ticker].update(prices)`. -/
def mergeTicker (cache : Cache) (t : String) (prices : Ser) : Cache :=
  let cache1 := if hasKey cache t then cache else dictInsert cache t []
  dictInsert cache1 t (dictUpdate ((lookupD cache1 t).getD []) prices)

/-- Fetch and classify one ticker (lines 193-203).  `_fetch_ticker_data`
catches every exception of its own attempts and returns `None` on exhausted
retries, so the fetch oracle is total; `if prices:` treats both `None` and an
empty dict as failure. -/
def fetchClassify (fetch : String → String → String → Option Ser)
    (startDate today : String) (cache : Cache) (t : String) :
    Cache × TickerOutcome :=
  match fetch t startDate today with
  | some prices =>
      if prices = [] then (cache, .failed)
      else (mergeTicker cache t prices, .updated)
  | none => (cache, .failed)

/-- The per-ticker decision of the loop body (lines 181-203): with a cached
series and no force-refresh, compute `last_date = max(keys)` (`max` of an
empty sequence raises `ValueError`), skip when `last_date >= today`, else
fetch only `today`; otherwise fetch the full history from the inception
date. -/
def tickerStep (fetch : String → String → String → Option Ser)
    (today inceptionDate : String) (forceRefresh : Bool) (cache : Cache)
    (t : String) : Except PyErr (Cache × TickerOutcome) :=
  match lookupD cache t, forceRefresh with
  | some ser, false =>
      match ser.map Prod.fst with
      | [] => .error .valueError
      | k :: ks =>
          if strLe today (pyMax k ks) then .ok (cache, .skipped)
          else .ok (fetchClassify fetch today today cache t)
  | _, _ => .ok (fetchClassify fetch inceptionDate today cache t)

/-- Append the ticker to the result list its outcome selects
(lines 185, 201, 203). -/
def applyOutcome (r : UpdateResults) (t : String) : TickerOutcome → UpdateResults
  | .updated => { r with updated := r.updated ++ [t] }
  | .failed => { r with failed := r.failed ++ [t] }
  | .skipped => { r with skipped := r.skipped ++ [t] }

/-- One iteration of the `for idx, ticker in enumerate(self.all_tickers, 1)`
loop (lines 172-203): the progress callback runs first (line 174-175) and can
raise; the `print` on line 178-179 has no state effect and is elided.  There
is no exception handler in this loop. -/
def processTicker (fetch : String → String → String → Option Ser)
    (progressCallback : Option (Nat → Nat → String → Except PyErr Unit))
    (total : Nat) (today inceptionDate : String) (forceRefresh : Bool)
    (st : Cache × UpdateResults) (idx : Nat) (t : String) :
    Except PyErr (Cache × UpdateResults) :=
  match (match progressCallback with
         | some cb => cb idx total t
         | none => Except.ok ()) with
  | .error e => .error e
  | .ok _ =>
      match tickerStep fetch today inceptionDate forceRefresh st.1 t with
      | .error e => .error e
      | .ok (c, o) => .ok (c, applyOutcome st.2 t o)

/-- The whole enumerated loop, threading the mutable
`(self.price_cache, results)` state. -/
def processTickers (fetch : String → String → String → Option Ser)
    (progressCallback : Option (Nat → Nat → String → Except PyErr Unit))
    (total : Nat) (today inceptionDate : String) (forceRefresh : Bool) :
    Cache × UpdateResults → List (Nat × String) →
    Except PyErr (Cache × UpdateResults)
  | st, [] => .ok st
  | st, (idx, t) :: rest =>
      match processTicker fetch progressCallback total today inceptionDate
          forceRefresh st idx t with
      | .error e => .error e
      | .ok st1 => processTickers fetch progressCallback total today
          inceptionDate forceRefresh st1 rest

/-- Embedding of `update_price_data` (lines 155-208): run the loop over the
enumerated universe, then `self._save_cache()` (which can raise), then return
`results`.  The `Cache` component of the result is the final
`self.price_cache`. -/
def updatePriceData (fetch : String → String → String → Option Ser)
    (progressCallback : Option (Nat → Nat → String → Except PyErr Unit))
    (saveCache : Cache → Except PyErr Unit) (allTickers : List String)
    (today inceptionDate : String) (forceRefresh : Bool) (cache : Cache) :
    Except PyErr (Cache × UpdateResults) :=
  match processTickers fetch progressCallback allTickers.length today
      inceptionDate forceRefresh (cache, ⟨[], [], []⟩)
      (allTickers.enumFrom 1) with
  | .error e => .error e
  | .ok st =>
      match saveCache st.1 with
      | .error e => .error e
      | .ok _ => .ok st

/-! ## Definitions: the save path (`_save_cache`, lines 63-66) -/

/-- Observable file content if the process stops after `k` characters of
`_save_cache`: `open(self.cache_file, 'w')` truncates the file at once and
`json.dump` then streams the new serialization, so after `k` written
characters the file holds exactly those `k` characters — the previous content
`oldContent` is already gone, whatever it was. -/
def saveCacheCrashState (oldContent newContent : String) (k : Nat) : String :=
  { data := newContent.data.take k }

/-! ## Definitions: rate limiter (`_rate_limit`, lines 68-77) -/

/-- Idealized wall clock: `clock` is what `time.time()` returns next, `last`
is `self.last_request_time`. -/
structure RLClock where
  clock : ℚ
  last : ℚ
deriving DecidableEq

/-- Model of `_rate_limit` on the idealized clock: read the clock, sleep the
remainder of the minimum interval if the elapsed time since the previous
request is shorter, store the new `last_request_time` and issue the HTTP
request at that instant.  Returns the post-state and the issue time. -/
def rateLimit (minInterval : ℚ) (s : RLClock) : RLClock × ℚ :=
  let t := if s.clock - s.last < minInterval
             then s.clock + (minInterval - (s.clock - s.last))
             else s.clock
  (⟨t, t⟩, t)

/-- Issue times of a sequence of rate-limited requests, e.g. the attempts of
`_fetch_ticker_data` (lines 88-111) across any number of calls: each element
`(pre, post)` of the schedule is one attempt, where `pre ≥ 0` is the time
spent before `_rate_limit` on that attempt (retry backoff `(attempt+1)*5`,
the 60-second HTTP-429 cooldown, any other work) and `post ≥ 0` the time
spent after the request is issued. -/
def attemptTimes (minInterval : ℚ) : RLClock → List (ℚ × ℚ) → List ℚ
  | _, [] => []
  | s, (pre, post) :: rest =>
      let s1 : RLClock := ⟨s.clock + pre, s.last⟩
      let r := rateLimit minInterval s1
      r.2 :: attemptTimes minInterval ⟨r.1.clock + post, r.1.last⟩ rest

/-! ## Definitions: analytics (`get_price_series` and the return engine) -/

/-- Embedding of `get_price_series` (lines 210-219): the ticker's cached dict
as a series sorted ascending by date; empty when the ticker is absent. -/
def getPriceSeries (cache : Cache) (t : String) : Ser :=
  match lookupD cache t with
  | none => []
  | some ps => sortByKey Prod.fst ps

/-- Position side. -/
inductive Side
  | long
  | short
deriving DecidableEq

/-- One row of `calculate_position_returns` (lines 241-250, 267-276).
Display rounding (`round(x, 2)`) is elided. -/
structure Position where
  ticker : String
  side : Side
  inceptionPrice : ℚ
  currentPrice : ℚ
  totalReturnPct : ℚ
  positionSize : ℚ
  currentValue : ℚ
  pnl : ℚ
deriving DecidableEq

/-- Per-ticker body of `calculate_position_returns` (lines 227-250 for longs,
253-276 for shorts): `None` when the ticker is excluded by a guard.  The
first guard `len(prices) < 2` tests the FULL cached series (line 229/255);
only then is the series restricted to the inception window (line 233/259),
and `if len(prices) < 1: continue` is exactly the empty-window case. -/
def positionFor (cache : Cache) (inceptionDate : String)
    (initialCapital positionSize : ℚ) (isLong : Bool) (t : String) :
    Option Position :=
  let prices := getPriceSeries cache t
  if prices.length < 2 then none
  else
    match prices.filter (fun p => strLe inceptionDate p.1) with
    | [] => none
    | p0 :: rest =>
        let inceptionPrice := p0.2
        let currentPrice := ((p0 :: rest).getLastD p0).2
        let totalReturn :=
          (if isLong then currentPrice / inceptionPrice - 1
           else -(currentPrice / inceptionPrice - 1)) * 100
        some { ticker := t
               side := if isLong then .long else .short
               inceptionPrice := inceptionPrice
               currentPrice := currentPrice
               totalReturnPct := totalReturn
               positionSize := initialCapital * positionSize
               currentValue := initialCapital * positionSize * (1 + totalReturn / 100)
               pnl := initialCapital * positionSize * totalReturn / 100 }

/-- Embedding of `calculate_position_returns` (lines 221-278): longs then
shorts, each in configured order, excluded tickers dropped. -/
def calculatePositionReturns (cache : Cache) (inceptionDate : String)
    (initialCapital positionSize : ℚ) (longs shorts : List String) :
    List Position :=
  longs.filterMap (positionFor cache inceptionDate initialCapital positionSize true)
  ++ shorts.filterMap (positionFor cache inceptionDate initialCapital positionSize false)

/-- Rebased in-window return of ticker `t` on date `d` (lines 304-313 /
316-325): `none` when `t` has no in-window price dated `d` (the membership
test on line 309/321), else `price(d)/price(first in-window) − 1`. -/
def retOn (cache : Cache) (inceptionDate : String) (t d : String) : Option ℚ :=
  match (getPriceSeries cache t).filter (fun p => strLe inceptionDate p.1) with
  | [] => none
  | p0 :: rest =>
      match lookupD (p0 :: rest) d with
      | none => none
      | some pd => some (pd / p0.2 - 1)

/-- One row of the portfolio time series (lines 332-337). -/
structure TimePoint where
  date : String
  longReturn : ℚ
  shortReturn : ℚ
  portfolioReturn : ℚ
deriving DecidableEq

/-- `np.mean` of a contribution list, with the `if date_long_return`-style
guard of line 328-329: zero for an empty list. -/
def mean0 (l : List ℚ) : ℚ := if l = [] then 0 else l.sum / l.length

/-- The loop body over one observation date (lines 299-337): collect the
rebased long returns and the negated rebased short returns of the tickers
priced on `d`; a row exists only if at least one side contributed
(line 327); `portfolio_return = (long_avg + short_avg) / 2` (line 330). -/
def rowOn (cache : Cache) (inceptionDate : String) (longs shorts : List String)
    (d : String) : Option TimePoint :=
  let ls := longs.filterMap (fun t => retOn cache inceptionDate t d)
  let ss := shorts.filterMap (fun t => (retOn cache inceptionDate t d).map Neg.neg)
  if ls = [] ∧ ss = [] then none
  else some ⟨d, mean0 ls, mean0 ss, (mean0 ls + mean0 ss) / 2⟩

/-- Observation-calendar candidates (lines 284-291): the set of all cached
dates of the whole universe, restricted to the inception window, sorted
ascending. -/
def allDates (cache : Cache) (allTickers : List String)
    (inceptionDate : String) : List String :=
  sortByKey id (((allTickers.foldl (fun acc t =>
      match lookupD cache t with
      | some ps => acc ++ ps.map Prod.fst
      | none => acc) []).dedup).filter (fun d => strLe inceptionDate d))

/-- Rows of the portfolio time series (lines 284-344): `all_tickers` is
`long + short + [sp500, russell3000]` (line 26). -/
def portfolioRows (cache : Cache) (longs shorts : List String)
    (sp500 russell : String) (inceptionDate : String) : List TimePoint :=
  (allDates cache (longs ++ shorts ++ [sp500, russell]) inceptionDate).filterMap
    (rowOn cache inceptionDate longs shorts)

/-- Running `(1 + portfolio_return).cumprod()` (line 347) paired with
`cumulative_return = cumprod − 1` and
`portfolio_value = initial_capital × (1 + cumulative_return)` (line 348). -/
def cumSeries (initialCapital : ℚ) : ℚ → List TimePoint →
    List (TimePoint × ℚ × ℚ)
  | _, [] => []
  | acc, r :: rs =>
      let acc1 := acc * (1 + r.portfolioReturn)
      (r, acc1 - 1, initialCapital * acc1) :: cumSeries initialCapital acc1 rs

/-- Embedding of `calculate_portfolio_timeseries` (lines 280-348, without the
benchmark columns): each row with its cumulative return and portfolio
value. -/
def portfolioTimeseries (cache : Cache) (longs shorts : List String)
    (sp500 russell : String) (inceptionDate : String)
    (initialCapital : ℚ) : List (TimePoint × ℚ × ℚ) :=
  cumSeries initialCapital 1 (portfolioRows cache longs shorts sp500 russell inceptionDate)

/-- Rebased benchmark return series (lines 350-356 / 360-366): the
benchmark's in-window prices divided by the first in-window price, minus 1;
empty when the benchmark has no in-window prices (both emptiness guards
collapse to the empty filtered series). -/
def benchSeries (cache : Cache) (inceptionDate : String) (bench : String) : Ser :=
  match (getPriceSeries cache bench).filter (fun p => strLe inceptionDate p.1) with
  | [] => []
  | p0 :: rest => (p0 :: rest).map (fun p => (p.1, p.2 / p0.2 - 1))

/-- Left-join of a rebased benchmark series onto the portfolio calendar
followed by `fillna(method='ffill')` (lines 357-358 / 367-368): each
portfolio date takes the benchmark value on that date when present, else the
last value seen on an earlier portfolio date; `none` is a pandas `NaN`
(leading dates before any benchmark value). -/
def ffillOn (rets : Ser) : Option ℚ → List String → List (String × Option ℚ)
  | _, [] => []
  | lastV, d :: ds =>
      let v := match lookupD rets d with
               | some x => some x
               | none => lastV
      (d, v) :: ffillOn rets v ds

/-- The benchmark column of the time series (lines 350-358): absent (empty)
when the benchmark contributes no in-window prices. -/
def benchColumn (cache : Cache) (inceptionDate : String) (bench : String)
    (rows : List TimePoint) : List (String × Option ℚ) :=
  if benchSeries cache inceptionDate bench = [] then []
  else ffillOn (benchSeries cache inceptionDate bench) none (rows.map (·.date))

/-- The rebased benchmark value at the nearest prior date, scanning `pre`
left to right and keeping the last date that has a benchmark entry. -/
def nearestPrior (rets : Ser) (pre : List String) : Option ℚ :=
  pre.foldl (fun acc d => match lookupD rets d with
    | some x => some x
    | none => acc) none

/-- Running `(1 + r).cumprod()` over the daily-return column (line 400). -/
def cumProd : ℚ → List ℚ → List ℚ
  | _, [] => []
  | acc, r :: rs => (acc * (1 + r)) :: cumProd (acc * (1 + r)) rs

/-- Helper for `expanding().max()`: running maximum seeded at `m`. -/
def runningMaxFrom : ℚ → List ℚ → List ℚ
  | _, [] => []
  | m, x :: xs => (max m x) :: runningMaxFrom (max m x) xs

/-- `cumulative.expanding().max()` (line 401). -/
def runningMax : List ℚ → List ℚ
  | [] => []
  | x :: xs => runningMaxFrom x (x :: xs)

/-- The drawdown series `(cumulative − running_max) / running_max`
(lines 399-402), from the rows' portfolio-return column. -/
def drawdownSeries (rows : List TimePoint) : List ℚ :=
  let cum := cumProd 1 (rows.map (·.portfolioReturn))
  List.zipWith (fun c m => (c - m) / m) cum (runningMax cum)

/-- `Series.min()`: `none` on an empty series. -/
def seriesMin : List ℚ → Option ℚ
  | [] => none
  | x :: xs => some (xs.foldl min x)

/-- The `max_drawdown` field of `calculate_metrics` (lines 372-376, 399-403,
430): `calculate_metrics` returns `{}` when the time series is empty
(modelled as `none`), else `drawdown.min() * 100`. -/
def calculateMetricsMaxDrawdown (cache : Cache) (longs shorts : List String)
    (sp500 russell : String) (inceptionDate : String) : Option ℚ :=
  match portfolioRows cache longs shorts sp500 russell inceptionDate with
  | [] => none
  | r :: rs => (seriesMin (drawdownSeries (r :: rs))).map (· * 100)

/-! ## Theorems: the string order -/

theorem lexLt_irrefl : ∀ l : List Char, lexLt l l = false
  | [] => rfl
  | a :: as => by
      simp only [lexLt, if_neg (lt_irrefl a)]
      exact lexLt_irrefl as

theorem lexLt_asymm : ∀ a b : List Char, lexLt a b = true → lexLt b a = false
  | [], [] => by simp [lexLt]
  | [], _ :: _ => by simp [lexLt]
  | _ :: _, [] => by simp [lexLt]
  | a :: as, b :: bs => by
      intro h
      simp only [lexLt] at h ⊢
      rcases lt_trichotomy a b with hab | hab | hab
      · rw [if_neg (not_lt_of_gt hab), if_pos hab]
      · subst hab
        rw [if_neg (lt_irrefl a)] at h ⊢
        rw [if_neg (lt_irrefl a)] at h ⊢
        exact lexLt_asymm as bs h
      · rw [if_neg (not_lt_of_gt hab), if_pos hab] at h
        exact absurd h (by simp)

theorem lexLt_eq_of_not_lt :
    ∀ a b : List Char, lexLt a b = false → lexLt b a = false → a = b
  | [], [] => by intro _ _; rfl
  | [], _ :: _ => by simp [lexLt]
  | _ :: _, [] => by simp [lexLt]
  | a :: as, b :: bs => by
      intro h₁ h₂
      simp only [lexLt] at h₁ h₂
      rcases lt_trichotomy a b with hab | hab | hab
      · rw [if_pos hab] at h₁; exact absurd h₁ (by simp)
      · subst hab
        rw [if_neg (lt_irrefl a), if_neg (lt_irrefl a)] at h₁ h₂
        rw [lexLt_eq_of_not_lt as bs h₁ h₂]
      · rw [if_pos hab] at h₂; exact absurd h₂ (by simp)

theorem lexLt_trans :
    ∀ a b c : List Char, lexLt a b = true → lexLt b c = true → lexLt a c = true
  | [], [], _ :: _ => by simp [lexLt]
  | [], _ :: _, _ :: _ => by simp [lexLt]
  | [], b, [] => by
      intro _ h
      cases b with
      | nil => simp [lexLt] at h
      | cons x xs => simp [lexLt] at h
  | _ :: _, [], _ => by intro h; simp [lexLt] at h
  | _ :: _, _ :: _, [] => by intro _ h; simp [lexLt] at h
  | a :: as, b :: bs, c :: cs => by
      intro h₁ h₂
      simp only [lexLt] at h₁ h₂ ⊢
      rcases lt_trichotomy a b with hab | hab | hab
      · rcases lt_trichotomy b c with hbc | hbc | hbc
        · rw [if_pos (lt_trans hab hbc)]
        · subst hbc; rw [if_pos hab]
        · rw [if_neg (not_lt_of_gt hbc), if_pos hbc] at h₂
          exact absurd h₂ (by simp)
      · subst hab
        rcases lt_trichotomy a c with hac | hac | hac
        · rw [if_pos hac]
        · subst hac
          rw [if_neg (lt_irrefl a)] at h₁ h₂ ⊢
          rw [if_neg (lt_irrefl a)] at h₁ h₂ ⊢
          exact lexLt_trans as bs cs h₁ h₂
        · rw [if_neg (not_lt_of_gt hac), if_pos hac] at h₂
          exact absurd h₂ (by simp)
      · rw [if_neg (not_lt_of_gt hab), if_pos hab] at h₁
        exact absurd h₁ (by simp)

theorem strLt_asymm {a b : String} (h : strLt a b = true) : strLt b a = false :=
  lexLt_asymm _ _ h

theorem strLe_refl (a : String) : strLe a a = true := by
  simp [strLe, strLt, lexLt_irrefl]

theorem strLe_antisymm {a b : String} (h₁ : strLe a b = true)
    (h₂ : strLe b a = true) : a = b := by
  simp only [strLe, Bool.not_eq_true', strLt] at h₁ h₂
  exact String.ext (lexLt_eq_of_not_lt _ _ h₂ h₁)

theorem strLe_total (a b : String) : strLe a b = true ∨ strLe b a = true := by
  simp only [strLe, Bool.not_eq_true']
  rcases h : strLt a b with _ | _
  · right; rfl
  · left; exact strLt_asymm h

theorem strLe_of_strLt {a b : String} (h : strLt a b = true) : strLe a b = true := by
  simp only [strLe, Bool.not_eq_true']
  exact strLt_asymm h

theorem strLt_of_not_strLe {a b : String} (h : ¬ strLe a b = true) :
    strLt b a = true := by
  simpa [strLe] using h

theorem strLe_trans {a b c : String} (h₁ : strLe a b = true)
    (h₂ : strLe b c = true) : strLe a c = true := by
  simp only [strLe, Bool.not_eq_true', strLt] at h₁ h₂ ⊢
  rcases hca : lexLt c.data a.data with _ | _
  · rfl
  · exfalso
    rcases hab : lexLt a.data b.data with _ | _
    · have hba : b.data = a.data := lexLt_eq_of_not_lt _ _ h₁ hab
      rw [← hba] at hca
      rw [hca] at h₂
      cases h₂
    · have := lexLt_trans _ _ _ hca hab
      rw [this] at h₂
      cases h₂

theorem strLt_trans {a b c : String} (h₁ : strLt a b = true)
    (h₂ : strLt b c = true) : strLt a c = true :=
  lexLt_trans _ _ _ h₁ h₂

theorem strLt_irrefl (a : String) : strLt a a = false := lexLt_irrefl _

/-- Strict order from non-strict order plus distinctness. -/
theorem strLt_of_strLe_ne {a b : String} (h : strLe a b = true) (hne : a ≠ b) :
    strLt a b = true := by
  rcases hba : strLt b a with _ | _
  · rcases hab : strLt a b with _ | _
    · exact absurd (String.ext (lexLt_eq_of_not_lt _ _ hab hba)) hne
    · rfl
  · simp [strLe, hba] at h

/-! ## Theorems: dictionary operations -/

theorem hasKey_iff_lookupD {α : Type} :
    ∀ (m : List (String × α)) (k : String),
      hasKey m k = true ↔ (lookupD m k).isSome = true
  | [], k => by simp [hasKey, lookupD]
  | p :: ps, k => by
      by_cases h : p.1 = k
      · simp [hasKey, lookupD, h]
      · simp only [hasKey, lookupD, if_neg h]
        exact hasKey_iff_lookupD ps k

theorem lookupD_none_of_hasKey_false {α : Type} {m : List (String × α)}
    {k : String} (h : hasKey m k = false) : lookupD m k = none := by
  rcases hl : lookupD m k with _ | w
  · rfl
  · have := (hasKey_iff_lookupD m k).mpr (by rw [hl]; rfl)
    rw [h] at this
    cases this

theorem lookupD_mapSet_self {α : Type} :
    ∀ (m : List (String × α)) (k : String) (v : α), hasKey m k = true →
      lookupD (m.map (fun p => if p.1 = k then (k, v) else p)) k = some v
  | [], k, v => by intro h; cases h
  | p :: ps, k, v => by
      intro h
      by_cases hpk : p.1 = k
      · simp [lookupD, hpk]
      · simp only [hasKey, if_neg hpk] at h
        simp only [List.map_cons, if_neg hpk, lookupD, if_neg hpk]
        exact lookupD_mapSet_self ps k v h

theorem lookupD_mapSet_other {α : Type} :
    ∀ (m : List (String × α)) (k d : String) (v : α), d ≠ k →
      lookupD (m.map (fun p => if p.1 = k then (k, v) else p)) d = lookupD m d
  | [], _, _, _ => by intro _; rfl
  | p :: ps, k, d, v => by
      intro hne
      by_cases hpk : p.1 = k
      · have h1 : (if p.1 = k then (k, v) else p) = (k, v) := if_pos hpk
        simp only [List.map_cons, h1, lookupD]
        rw [if_neg (fun hh : k = d => hne hh.symm),
          if_neg (fun hh : p.1 = d => hne (hh ▸ hpk))]
        exact lookupD_mapSet_other ps k d v hne
      · simp only [List.map_cons, if_neg hpk, lookupD]
        by_cases hpd : p.1 = d
        · rw [if_pos hpd, if_pos hpd]
        · rw [if_neg hpd, if_neg hpd]
          exact lookupD_mapSet_other ps k d v hne

theorem lookupD_append {α : Type} :
    ∀ (m m₂ : List (String × α)) (d : String),
      lookupD (m ++ m₂) d =
        (match lookupD m d with
          | some w => some w
          | none => lookupD m₂ d)
  | [], m₂, d => by simp [lookupD]
  | p :: ps, m₂, d => by
      by_cases hpd : p.1 = d
      · simp [lookupD, hpd]
      · simp only [List.cons_append, lookupD, if_neg hpd]
        exact lookupD_append ps m₂ d

theorem lookupD_dictInsert_self {α : Type} (m : List (String × α))
    (k : String) (v : α) : lookupD (dictInsert m k v) k = some v := by
  rw [dictInsert]
  rcases hk : hasKey m k with _ | _
  · rw [if_neg (by simp), lookupD_append, lookupD_none_of_hasKey_false hk]
    simp [lookupD]
  · rw [if_pos rfl]
    exact lookupD_mapSet_self m k v hk

theorem lookupD_dictInsert_other {α : Type} (m : List (String × α))
    (k d : String) (v : α) (hne : d ≠ k) :
    lookupD (dictInsert m k v) d = lookupD m d := by
  rw [dictInsert]
  rcases hk : hasKey m k with _ | _
  · rw [if_neg (by simp), lookupD_append]
    rcases hd : lookupD m d with _ | w
    · show lookupD [(k, v)] d = none
      simp only [lookupD]
      rw [if_neg (fun hh : k = d => hne hh.symm)]
    · rfl
  · rw [if_pos rfl]
    exact lookupD_mapSet_other m k d v hne

/-- Keys not mentioned by `new` keep their old value under `dict.update`. -/
theorem lookupD_dictUpdate_absent {α : Type} :
    ∀ (new old : List (String × α)) (d : String), lookupD new d = none →
      lookupD (dictUpdate old new) d = lookupD old d
  | [], old, d => by intro; rfl
  | p :: ps, old, d => by
      intro h
      simp only [lookupD] at h
      by_cases hpd : p.1 = d
      · rw [if_pos hpd] at h; cases h
      · rw [if_neg hpd] at h
        simp only [dictUpdate, List.foldl_cons]
        have := lookupD_dictUpdate_absent ps (dictInsert old p.1 p.2) d h
        rw [dictUpdate] at this
        rw [this]
        exact lookupD_dictInsert_other old p.1 d p.2 (fun hh : d = p.1 => hpd hh.symm)

/-- Keys mentioned by `new` take `new`'s value under `dict.update` (keys of a
Python dict are unique, whence the `Nodup` hypothesis). -/
theorem lookupD_dictUpdate_present {α : Type} :
    ∀ (new old : List (String × α)) (d : String) (v : α),
      (new.map Prod.fst).Nodup → lookupD new d = some v →
      lookupD (dictUpdate old new) d = some v
  | [], old, d, v => by intro _ h; cases h
  | p :: ps, old, d, v => by
      intro hnd h
      simp only [List.map_cons, List.nodup_cons] at hnd
      simp only [lookupD] at h
      simp only [dictUpdate, List.foldl_cons]
      by_cases hpd : p.1 = d
      · rw [if_pos hpd] at h
        have hmem : ∀ (qs : List (String × α)) (w : α), lookupD qs d = some w →
            d ∈ qs.map Prod.fst := by
          intro qs
          induction qs with
          | nil => intro w hl; cases hl
          | cons q rest ih =>
            intro w hl
            simp only [lookupD] at hl
            by_cases hqd : q.1 = d
            · simp [← hqd]
            · rw [if_neg hqd] at hl
              simp only [List.map_cons, List.mem_cons]
              exact Or.inr (ih w hl)
        have habs : lookupD ps d = none := by
          rcases hl : lookupD ps d with _ | w
          · rfl
          · exact absurd (hpd ▸ hmem ps w hl) hnd.1
        have hstep := lookupD_dictUpdate_absent ps (dictInsert old p.1 p.2) d habs
        rw [dictUpdate] at hstep
        rw [hstep, hpd]
        injection h with hv
        rw [← hv]
        exact hpd ▸ lookupD_dictInsert_self old p.1 p.2
      · rw [if_neg hpd] at h
        exact lookupD_dictUpdate_present ps (dictInsert old p.1 p.2) d v hnd.2 h

/-! ## Theorems: merge (claim C6) -/

/-- The merged ticker's stored series is exactly `dict.update` of its previous
series (empty when the ticker was absent) with the fetched prices. -/
theorem lookupD_mergeTicker_self (cache : Cache) (t : String) (prices : Ser) :
    lookupD (mergeTicker cache t prices) t
      = some (dictUpdate ((lookupD cache t).getD []) prices) := by
  rw [mergeTicker]
  rcases hk : hasKey cache t with _ | _
  · rw [if_neg (by simp)]
    have h0 : lookupD (dictInsert cache t ([] : Ser)) t = some [] :=
      lookupD_dictInsert_self cache t []
    rw [h0, lookupD_none_of_hasKey_false hk]
    exact lookupD_dictInsert_self _ t _
  · rw [if_pos rfl]
    exact lookupD_dictInsert_self cache t _

/-- Merging one ticker leaves every other ticker's series untouched. -/
theorem lookupD_mergeTicker_other (cache : Cache) (t : String) (prices : Ser)
    (s : String) (hne : s ≠ t) :
    lookupD (mergeTicker cache t prices) s = lookupD cache s := by
  rw [mergeTicker]
  rcases hk : hasKey cache t with _ | _
  · rw [if_neg (by simp), lookupD_dictInsert_other _ t s _ hne,
      lookupD_dictInsert_other _ t s _ hne]
  · rw [if_pos rfl, lookupD_dictInsert_other _ t s _ hne]

/-- C6: merge is non-destructive — for every ticker, every previously cached
state, and every new date→price mapping, merging leaves every previously
cached date absent from the new mapping unchanged, and overwrites each date
present in the new mapping with the new value. -/
theorem merge_nondestructive (cache : Cache) (t : String) (prices : Ser)
    (d : String) :
    (lookupD prices d = none →
      lookupD ((lookupD (mergeTicker cache t prices) t).getD []) d
        = lookupD ((lookupD cache t).getD []) d)
    ∧ (∀ v : ℚ, (prices.map Prod.fst).Nodup → lookupD prices d = some v →
      lookupD ((lookupD (mergeTicker cache t prices) t).getD []) d = some v) := by
  rw [lookupD_mergeTicker_self]
  constructor
  · intro habs
    exact lookupD_dictUpdate_absent prices _ d habs
  · intro v hnd hpres
    exact lookupD_dictUpdate_present prices _ d v hnd hpres

/-- Witness for C6: a concrete merge keeps the old date `2025-11-01` and
overwrites the date `2025-11-02` supplied by the fetch. -/
theorem merge_nondestructive_witness :
    lookupD ((lookupD (mergeTicker [("X", [("2025-11-01", (5:ℚ))])] "X"
        [("2025-11-02", (7:ℚ))]) "X").getD []) "2025-11-01" = some 5
    ∧ lookupD ((lookupD (mergeTicker [("X", [("2025-11-01", (5:ℚ))])] "X"
        [("2025-11-02", (7:ℚ))]) "X").getD []) "2025-11-02" = some 7 := by
  constructor
  · have h := (merge_nondestructive [("X", [("2025-11-01", (5:ℚ))])] "X"
      [("2025-11-02", (7:ℚ))] "2025-11-01").1 (by decide)
    rw [h]
    decide
  · exact (merge_nondestructive [("X", [("2025-11-01", (5:ℚ))])] "X"
      [("2025-11-02", (7:ℚ))] "2025-11-02").2 7 (by decide) (by decide)

/-! ## Theorems: rate limiter (claim C2) -/

/-- The instant `_rate_limit` hands back is at least a full minimum interval
after the previous stored request time, never earlier than the clock, and is
stored as both the new clock and the new `last_request_time`. -/
theorem rateLimit_spec (I : ℚ) (s : RLClock) :
    s.last + I ≤ (rateLimit I s).2 ∧ s.clock ≤ (rateLimit I s).2
    ∧ (rateLimit I s).1 = ⟨(rateLimit I s).2, (rateLimit I s).2⟩ := by
  refine ⟨?_, ?_, rfl⟩
  · simp only [rateLimit]
    by_cases hc : s.clock - s.last < I
    · rw [if_pos hc]
      linarith
    · rw [if_neg hc]
      push_neg at hc
      linarith
  · simp only [rateLimit]
    by_cases hc : s.clock - s.last < I
    · rw [if_pos hc]
      linarith
    · rw [if_neg hc]

/-- C2: every outbound request of the quote client, retries included, is
issued at least the global minimum inter-request interval after the previous
request of the process: on the idealized clock, for any attempt schedule with
nonnegative backoff/processing delays and any starting state whose clock is
not behind the stored last-request time, consecutive issue times are at least
`minInterval` apart (and every issue time is at least `last + minInterval`). -/
theorem rate_limiter_spacing (I : ℚ) :
    ∀ (sched : List (ℚ × ℚ)) (s : RLClock), 0 ≤ I →
      (∀ p ∈ sched, 0 ≤ p.1 ∧ 0 ≤ p.2) → s.last ≤ s.clock →
      List.Chain' (fun a b => a + I ≤ b) (attemptTimes I s sched)
      ∧ ∀ u ∈ attemptTimes I s sched, s.last + I ≤ u
  | [], s => by
      intro _ _ _
      exact ⟨List.chain'_nil, by intro u hu; cases hu⟩
  | (pre, post) :: rest, s => by
      intro hI hsched hs
      have hpre : 0 ≤ pre := (hsched (pre, post) (by simp)).1
      have hpost : 0 ≤ post := (hsched (pre, post) (by simp)).2
      have hs1 : s.last ≤ s.clock + pre := by linarith
      have hspec := rateLimit_spec I ⟨s.clock + pre, s.last⟩
      set t := (rateLimit I ⟨s.clock + pre, s.last⟩).2 with ht
      have hnext : (⟨(rateLimit I ⟨s.clock + pre, s.last⟩).1.clock + post,
          (rateLimit I ⟨s.clock + pre, s.last⟩).1.last⟩ : RLClock)
          = ⟨t + post, t⟩ := by
        rw [hspec.2.2]
      have hrec := rate_limiter_spacing I rest ⟨t + post, t⟩ hI
        (fun p hp => hsched p (List.mem_cons_of_mem _ hp))
        (by show t ≤ t + post; linarith)
      have hunf : attemptTimes I s ((pre, post) :: rest)
          = t :: attemptTimes I ⟨t + post, t⟩ rest := by
        rw [attemptTimes, hnext]
      rw [hunf]
      constructor
      · rw [List.chain'_cons']
        refine ⟨?_, hrec.1⟩
        intro b hb
        have hbmem : b ∈ attemptTimes I ⟨t + post, t⟩ rest := by
          rcases hhead : (attemptTimes I ⟨t + post, t⟩ rest).head? with _ | z
          · rw [hhead] at hb; cases hb
          · rw [hhead] at hb
            cases hb
            exact List.mem_of_mem_head? hhead
        exact hrec.2 b hbmem
      · intro u hu
        rcases List.mem_cons.mp hu with hu | hu
        · rw [hu]
          exact hspec.1
        · have := hrec.2 u hu
          have htge : s.last + I ≤ t := hspec.1
          have : t + I ≤ u := this
          linarith

/-- Witness for C2: a two-attempt schedule starting from a fresh engine
(`last_request_time = 0`) with interval 1 has its consecutive issue times at
least 1 second apart. -/
theorem rate_limiter_spacing_witness :
    List.Chain' (fun a b => a + 1 ≤ b)
      (attemptTimes 1 ⟨0, 0⟩ [(0, 0), (0, 0)]) :=
  (rate_limiter_spacing 1 [(0, 0), (0, 0)] ⟨0, 0⟩ (by norm_num)
    (by
      intro p hp
      rcases List.mem_cons.mp hp with h | h
      · subst h; exact ⟨le_refl _, le_refl _⟩
      · rw [List.mem_singleton.mp h]; exact ⟨le_refl _, le_refl _⟩)
    (le_refl 0)).1

/-! ## Theorems: update orchestrator (claims C3, C4, C7) -/

theorem enumFrom_map_snd : ∀ (n : Nat) (l : List String),
    (l.enumFrom n).map Prod.snd = l
  | _, [] => rfl
  | n, x :: xs => by
      simp only [List.enumFrom, List.map_cons]
      rw [enumFrom_map_snd (n + 1) xs]

theorem processTicker_ok {fetch : String → String → String → Option Ser}
    {cb : Option (Nat → Nat → String → Except PyErr Unit)} {total : Nat}
    {today incep : String} {force : Bool} {st : Cache × UpdateResults}
    {idx : Nat} {t : String} {st' : Cache × UpdateResults}
    (h : processTicker fetch cb total today incep force st idx t = .ok st') :
    ∃ c o, tickerStep fetch today incep force st.1 t = .ok (c, o)
      ∧ st' = (c, applyOutcome st.2 t o) := by
  unfold processTicker at h
  rcases hcb : (match cb with | some c => c idx total t | none => Except.ok ()) with e | u
  · rw [hcb] at h; cases h
  · rw [hcb] at h
    rcases hts : tickerStep fetch today incep force st.1 t with e | p
    · rw [hts] at h; cases h
    · rcases p with ⟨c, o⟩
      rw [hts] at h
      refine ⟨c, o, rfl, ?_⟩
      injection h with h2
      exact h2.symm

theorem counts_applyOutcome (r : UpdateResults) (t : String) (o : TickerOutcome)
    (x : String) :
    (applyOutcome r t o).updated.count x + (applyOutcome r t o).failed.count x
      + (applyOutcome r t o).skipped.count x
    = r.updated.count x + r.failed.count x + r.skipped.count x
      + List.count x [t] := by
  cases o <;> simp [applyOutcome, List.count_append] <;> omega

theorem processTickers_counts {fetch : String → String → String → Option Ser}
    {cb : Option (Nat → Nat → String → Except PyErr Unit)} {total : Nat}
    {today incep : String} {force : Bool} :
    ∀ (pairs : List (Nat × String)) (st st' : Cache × UpdateResults),
      processTickers fetch cb total today incep force st pairs = .ok st' →
      ∀ x, st'.2.updated.count x + st'.2.failed.count x + st'.2.skipped.count x
        = st.2.updated.count x + st.2.failed.count x + st.2.skipped.count x
          + (pairs.map Prod.snd).count x
  | [], st, st' => by
      intro h x
      rw [processTickers] at h
      injection h with h2
      subst h2
      simp
  | (idx, t) :: rest, st, st' => by
      intro h x
      rw [processTickers] at h
      rcases hpt : processTicker fetch cb total today incep force st idx t with e | st1
      · rw [hpt] at h; cases h
      · rw [hpt] at h
        obtain ⟨c, o, _, hst1⟩ := processTicker_ok hpt
        have hrec := processTickers_counts rest st1 st' h x
        rw [hrec, hst1]
        have happ := counts_applyOutcome st.2 t o x
        simp only [List.map_cons, List.count_cons]
        simp only [happ, List.count_cons, List.count_nil]
        omega

theorem updatePriceData_ok {fetch : String → String → String → Option Ser}
    {cb : Option (Nat → Nat → String → Except PyErr Unit)}
    {save : Cache → Except PyErr Unit} {allTickers : List String}
    {today incep : String} {force : Bool} {cache c : Cache} {r : UpdateResults}
    (h : updatePriceData fetch cb save allTickers today incep force cache
      = .ok (c, r)) :
    processTickers fetch cb allTickers.length today incep force
      (cache, ⟨[], [], []⟩) (allTickers.enumFrom 1) = .ok (c, r) := by
  rw [updatePriceData] at h
  split at h
  · cases h
  · rename_i st heq
    split at h
    · cases h
    · injection h with h2
      rw [h2] at heq
      exact heq

/-- C3: after any update pass that returns, the Updated, Failed and Skipped
lists partition the ticker universe exactly: counted with multiplicity they
cover the universe, and for a duplicate-free universe every member appears in
exactly one of the three lists. -/
theorem update_pass_partition (fetch : String → String → String → Option Ser)
    (cb : Option (Nat → Nat → String → Except PyErr Unit))
    (save : Cache → Except PyErr Unit) (allTickers : List String)
    (today incep : String) (force : Bool) (cache c : Cache) (r : UpdateResults)
    (h : updatePriceData fetch cb save allTickers today incep force cache
      = .ok (c, r)) :
    (∀ x, r.updated.count x + r.failed.count x + r.skipped.count x
      = allTickers.count x)
    ∧ (allTickers.Nodup → ∀ x ∈ allTickers,
        r.updated.count x + r.failed.count x + r.skipped.count x = 1) := by
  have hp := updatePriceData_ok h
  have hcounts := processTickers_counts (allTickers.enumFrom 1) _ _ hp
  have hmain : ∀ x, r.updated.count x + r.failed.count x + r.skipped.count x
      = allTickers.count x := by
    intro x
    have := hcounts x
    simpa [enumFrom_map_snd] using this
  refine ⟨hmain, ?_⟩
  intro hnd x hx
  rw [hmain x]
  exact List.count_eq_one_of_mem hnd hx

/-- Witness for C3: a two-ticker universe, empty cache, a fetch that returns
one bar — both tickers are classified Updated and together the three lists
cover the universe exactly once. -/
theorem update_pass_partition_witness :
    (⟨["A", "B"], [], []⟩ : UpdateResults).updated.count "A"
      + (⟨["A", "B"], [], []⟩ : UpdateResults).failed.count "A"
      + (⟨["A", "B"], [], []⟩ : UpdateResults).skipped.count "A"
      = ["A", "B"].count "A" :=
  (update_pass_partition (fun _ _ _ => some [("2025-11-01", (1:ℚ))]) none
    (fun _ => Except.ok ()) ["A", "B"] "2025-11-01" "2025-10-28" false []
    [("A", [("2025-11-01", (1:ℚ))]), ("B", [("2025-11-01", (1:ℚ))])]
    ⟨["A", "B"], [], []⟩ (by decide)).1 "A"

/-- C4 counterexample: with ticker `X` cached as an empty series and
`force_refresh = False`, the loop body computes `max()` of an empty key view,
which raises `ValueError`; nothing catches it, so the whole pass aborts with
the exception — `X` is not classified Failed, no result sets are returned,
and `Y` is never processed. -/
theorem exception_aborts_pass_counterexample :
    updatePriceData (fun _ _ _ => some [("2025-11-01", (1:ℚ))]) none
      (fun _ => Except.ok ()) ["X", "Y"] "2025-11-01" "2025-10-28" false
      [("X", [])] = .error .valueError := by decide

/-- C4 amended: `update_price_data` has no per-ticker exception handler —
exceptions raised inside the fetch attempts are swallowed by
`_fetch_ticker_data` itself (failure becomes the value `None` and the ticker
is classified Failed), but an unexpected exception raised in the
orchestrator's own loop body (here `max()` of an empty cached series)
propagates immediately: the pass returns that exception instead of result
sets, and the remaining tickers are not processed. -/
theorem exception_aborts_pass (fetch : String → String → String → Option Ser)
    (save : Cache → Except PyErr Unit) (rest : List String)
    (today incep : String) (cache : Cache) (t : String)
    (h : lookupD cache t = some []) :
    updatePriceData fetch none save (t :: rest) today incep false cache
      = .error .valueError := by
  have hstep : tickerStep fetch today incep false cache t
      = .error .valueError := by
    simp [tickerStep, h]
  have hpt : processTicker fetch none (t :: rest).length today incep false
      (cache, ⟨[], [], []⟩) 1 t = .error .valueError := by
    unfold processTicker
    rw [hstep]
  rw [updatePriceData]
  have henum : (t :: rest).enumFrom 1 = (1, t) :: rest.enumFrom 2 := rfl
  rw [henum, processTickers, hpt]

/-- Witness for the amended C4 at a concrete input. -/
theorem exception_aborts_pass_witness :
    updatePriceData (fun _ _ _ => none) none (fun _ => Except.ok ())
      ["X", "Y"] "2025-11-01" "2025-10-28" false [("X", [])]
      = .error .valueError :=
  exception_aborts_pass (fun _ _ _ => none) (fun _ => Except.ok ()) ["Y"]
    "2025-11-01" "2025-10-28" [("X", [])] "X" (by decide)

/-! ## Theorems: idempotent second pass (claim C7) -/

theorem strLe_pyMax : ∀ (ks : List String) (k x : String), x ∈ k :: ks →
    strLe x (pyMax k ks) = true
  | [], k, x => by
      intro hx
      rw [List.mem_singleton.mp hx]
      exact strLe_refl k
  | b :: bs, k, x => by
      intro hx
      have hstep : pyMax k (b :: bs) = pyMax (if strLt k b then b else k) bs := by
        rw [pyMax, pyMax, List.foldl_cons]
      have hk : strLe k (if strLt k b then b else k) = true := by
        rcases hkb : strLt k b with _ | _
        · rw [if_neg Bool.false_ne_true]
          exact strLe_refl k
        · rw [if_pos rfl]
          exact strLe_of_strLt hkb
      have hb : strLe b (if strLt k b then b else k) = true := by
        rcases hkb : strLt k b with _ | _
        · rw [if_neg Bool.false_ne_true]
          simp [strLe, hkb]
        · rw [if_pos rfl]
          exact strLe_refl b
      rw [hstep]
      rcases List.mem_cons.mp hx with hxk | hx2
      · rw [hxk]
        exact strLe_trans hk
          (strLe_pyMax bs _ _ (List.mem_cons_self _ _))
      · rcases List.mem_cons.mp hx2 with hxb | hxbs
        · rw [hxb]
          exact strLe_trans hb
            (strLe_pyMax bs _ _ (List.mem_cons_self _ _))
        · exact strLe_pyMax bs _ x (List.mem_cons_of_mem _ hxbs)

theorem fetchClassify_lookup_other (fetch : String → String → String → Option Ser)
    (sd td : String) (cache : Cache) (t s : String) (hne : s ≠ t) :
    lookupD (fetchClassify fetch sd td cache t).1 s = lookupD cache s := by
  rw [fetchClassify]
  rcases hf : fetch t sd td with _ | prices
  · rfl
  · show lookupD (if prices = [] then (cache, TickerOutcome.failed)
        else (mergeTicker cache t prices, TickerOutcome.updated)).1 s
        = lookupD cache s
    by_cases hp : prices = []
    · rw [if_pos hp]
    · rw [if_neg hp]
      exact lookupD_mergeTicker_other cache t prices s hne

theorem tickerStep_lookup_other {fetch : String → String → String → Option Ser}
    {today incep : String} {force : Bool} {cache : Cache} {t : String}
    {c : Cache} {o : TickerOutcome} (s : String) (hne : s ≠ t)
    (h : tickerStep fetch today incep force cache t = .ok (c, o)) :
    lookupD c s = lookupD cache s := by
  unfold tickerStep at h
  rcases hl : lookupD cache t with _ | ser
  · rw [hl] at h
    have h' : (Except.ok (fetchClassify fetch incep today cache t)
        : Except PyErr (Cache × TickerOutcome)) = .ok (c, o) := h
    injection h' with h2
    have hc : (fetchClassify fetch incep today cache t).1 = c :=
      congrArg Prod.fst h2
    rw [← hc]
    exact fetchClassify_lookup_other fetch incep today cache t s hne
  · rw [hl] at h
    cases force with
    | true =>
        have h' : (Except.ok (fetchClassify fetch incep today cache t)
            : Except PyErr (Cache × TickerOutcome)) = .ok (c, o) := h
        injection h' with h2
        have hc : (fetchClassify fetch incep today cache t).1 = c :=
          congrArg Prod.fst h2
        rw [← hc]
        exact fetchClassify_lookup_other fetch incep today cache t s hne
    | false =>
        have h' : (match ser.map Prod.fst with
            | [] => (Except.error PyErr.valueError
                : Except PyErr (Cache × TickerOutcome))
            | k :: ks =>
                if strLe today (pyMax k ks) then Except.ok (cache, TickerOutcome.skipped)
                else Except.ok (fetchClassify fetch today today cache t))
            = .ok (c, o) := h
        rcases hkeys : ser.map Prod.fst with _ | ⟨k, ks⟩
        · rw [hkeys] at h'
          cases h'
        · rw [hkeys] at h'
          have h'' : (if strLe today (pyMax k ks)
              then (Except.ok (cache, TickerOutcome.skipped)
                : Except PyErr (Cache × TickerOutcome))
              else Except.ok (fetchClassify fetch today today cache t))
              = .ok (c, o) := h'
          by_cases hle : strLe today (pyMax k ks) = true
          · rw [if_pos hle] at h''
            injection h'' with h2
            have hc : cache = c := congrArg Prod.fst h2
            rw [← hc]
          · rw [if_neg hle] at h''
            injection h'' with h2
            have hc : (fetchClassify fetch today today cache t).1 = c :=
              congrArg Prod.fst h2
            rw [← hc]
            exact fetchClassify_lookup_other fetch today today cache t s hne

theorem tickerStep_skip {fetch : String → String → String → Option Ser}
    {today incep : String} {cache : Cache} {t : String} {ser : Ser}
    {k : String} {ks : List String}
    (hser : lookupD cache t = some ser) (hkeys : ser.map Prod.fst = k :: ks)
    (hle : strLe today (pyMax k ks) = true) :
    tickerStep fetch today incep false cache t = .ok (cache, .skipped) := by
  simp [tickerStep, hser, hkeys, hle]

theorem processTickers_skipped_mono {fetch : String → String → String → Option Ser}
    {cb : Option (Nat → Nat → String → Except PyErr Unit)} {total : Nat}
    {today incep : String} {force : Bool} :
    ∀ (pairs : List (Nat × String)) (st st' : Cache × UpdateResults),
      processTickers fetch cb total today incep force st pairs = .ok st' →
      ∃ l, st'.2.skipped = st.2.skipped ++ l
  | [], st, st' => by
      intro h
      rw [processTickers] at h
      injection h with h2
      subst h2
      exact ⟨[], by simp⟩
  | (idx, t) :: rest, st, st' => by
      intro h
      rw [processTickers] at h
      rcases hpt : processTicker fetch cb total today incep force st idx t with e | st1
      · rw [hpt] at h; cases h
      · rw [hpt] at h
        obtain ⟨c, o, _, hst1⟩ := processTicker_ok hpt
        obtain ⟨l, hl⟩ := processTickers_skipped_mono rest st1 st' h
        cases o with
        | updated => exact ⟨l, by rw [hl, hst1]; simp [applyOutcome]⟩
        | failed => exact ⟨l, by rw [hl, hst1]; simp [applyOutcome]⟩
        | skipped =>
            refine ⟨[t] ++ l, ?_⟩
            rw [hl, hst1]
            simp [applyOutcome]

/-- If ticker `t` occurs in the remaining work list and the state's cache
holds a series for `t` whose latest date is on or after `today`, the pass
(`force_refresh = False`) classifies `t` as Skipped. -/
theorem processTickers_skips {fetch : String → String → String → Option Ser}
    {cb : Option (Nat → Nat → String → Except PyErr Unit)} {total : Nat}
    {today incep : String} (t : String) :
    ∀ (pairs : List (Nat × String)) (st st' : Cache × UpdateResults),
      t ∈ pairs.map Prod.snd →
      (∃ ser k ks, lookupD st.1 t = some ser ∧ ser.map Prod.fst = k :: ks
        ∧ strLe today (pyMax k ks) = true) →
      processTickers fetch cb total today incep false st pairs = .ok st' →
      t ∈ st'.2.skipped
  | [], st, st' => by
      intro hmem _ _
      simp at hmem
  | (idx, s) :: rest, st, st' => by
      intro hmem hcond h
      rw [processTickers] at h
      rcases hpt : processTicker fetch cb total today incep false st idx s with e | st1
      · rw [hpt] at h; cases h
      · rw [hpt] at h
        obtain ⟨c, o, hts, hst1⟩ := processTicker_ok hpt
        by_cases hst : s = t
        · subst hst
          obtain ⟨ser, k, ks, hser, hkeys, hle⟩ := hcond
          rw [tickerStep_skip hser hkeys hle] at hts
          injection hts with hts2
          injection hts2 with hc ho
          obtain ⟨l, hl⟩ := processTickers_skipped_mono rest st1 st' h
          rw [hl, hst1, ← ho]
          simp [applyOutcome]
        · obtain ⟨ser, k, ks, hser, hkeys, hle⟩ := hcond
          have hframe : lookupD c t = lookupD st.1 t :=
            tickerStep_lookup_other t (fun hh => hst hh.symm) hts
          have hcond1 : ∃ ser k ks, lookupD st1.1 t = some ser
              ∧ ser.map Prod.fst = k :: ks ∧ strLe today (pyMax k ks) = true := by
            refine ⟨ser, k, ks, ?_, hkeys, hle⟩
            rw [hst1]
            rw [hframe]
            exact hser
          have hmem1 : t ∈ rest.map Prod.snd := by
            simp only [List.map_cons, List.mem_cons] at hmem
            rcases hmem with hmem | hmem
            · exact absurd hmem.symm hst
            · exact hmem
          exact processTickers_skips t rest st1 st' hmem1 hcond1 h

/-- C7 amended: a second immediate pass with `force_refresh = False` and the
same `today` classifies as Skipped every ticker whose post-first-pass cached
series contains a date on or after `today` — in particular every
first-pass-Updated ticker whose merged data included a bar dated `today`.  (A
first-pass-Updated ticker whose fetched bars are all dated before `today` is
fetched again by the second pass, not Skipped — see the counterexample.) -/
theorem second_pass_skips (fetch : String → String → String → Option Ser)
    (cb₁ cb₂ : Option (Nat → Nat → String → Except PyErr Unit))
    (save₁ save₂ : Cache → Except PyErr Unit) (allTickers : List String)
    (today incep : String) (cache c₁ c₂ : Cache) (r₁ r₂ : UpdateResults)
    (t : String)
    (h₁ : updatePriceData fetch cb₁ save₁ allTickers today incep false cache
      = .ok (c₁, r₁))
    (ht : t ∈ r₁.updated)
    (hmem : t ∈ allTickers)
    (hkey : ∃ ser k, lookupD c₁ t = some ser ∧ k ∈ ser.map Prod.fst
      ∧ strLe today k = true)
    (h₂ : updatePriceData fetch cb₂ save₂ allTickers today incep false c₁
      = .ok (c₂, r₂)) :
    t ∈ r₂.skipped := by
  have hp₂ := updatePriceData_ok h₂
  obtain ⟨ser, k, hser, hkmem, hkle⟩ := hkey
  have hcond : ∃ ser k ks, lookupD c₁ t = some ser
      ∧ ser.map Prod.fst = k :: ks ∧ strLe today (pyMax k ks) = true := by
    rcases hkeys : ser.map Prod.fst with _ | ⟨k0, ks⟩
    · rw [hkeys] at hkmem
      cases hkmem
    · refine ⟨ser, k0, ks, hser, hkeys, ?_⟩
      rw [hkeys] at hkmem
      exact strLe_trans hkle (strLe_pyMax ks k0 k hkmem)
  exact processTickers_skips t (allTickers.enumFrom 1) _ _
    (by rw [enumFrom_map_snd]; exact hmem) hcond hp₂

/-- Witness for the amended C7: one ticker, fetched bar dated `today`; the
first pass updates it and the second pass skips it. -/
theorem second_pass_skips_witness :
    "X" ∈ (⟨[], [], ["X"]⟩ : UpdateResults).skipped :=
  second_pass_skips (fun _ _ _ => some [("2025-11-01", (1:ℚ))]) none none
    (fun _ => Except.ok ()) (fun _ => Except.ok ()) ["X"]
    "2025-11-01" "2025-10-28" [] [("X", [("2025-11-01", (1:ℚ))])]
    [("X", [("2025-11-01", (1:ℚ))])] ⟨["X"], [], []⟩ ⟨[], [], ["X"]⟩ "X"
    (by decide) (by decide) (by decide)
    ⟨[("2025-11-01", (1:ℚ))], "2025-11-01", by decide, by decide, by decide⟩
    (by decide)

/-- C7 counterexample: `today` is 2025-10-29 but the provider only has a bar
for 2025-10-28 (e.g. a non-trading day).  The first pass classifies `X` as
Updated; the immediately following second pass — same `today`, no new trading
day — fetches `X` again and classifies it Updated, not Skipped. -/
theorem second_pass_counterexample :
    (updatePriceData (fun _ _ _ => some [("2025-10-28", (100:ℚ))]) none
      (fun _ => Except.ok ()) ["X"] "2025-10-29" "2025-10-28" false []
      = .ok ([("X", [("2025-10-28", (100:ℚ))])], ⟨["X"], [], []⟩))
    ∧ (updatePriceData (fun _ _ _ => some [("2025-10-28", (100:ℚ))]) none
      (fun _ => Except.ok ()) ["X"] "2025-10-29" "2025-10-28" false
      [("X", [("2025-10-28", (100:ℚ))])]
      = .ok ([("X", [("2025-10-28", (100:ℚ))])], ⟨["X"], [], []⟩)) := by
  constructor
  · decide
  · decide

/-! ## Theorems: the save path (claim C5) -/

/-- C5 counterexample: interrupting `_save_cache` after one written character
leaves the file holding `"A"` — neither the previously-good content `"X"`
nor the complete new serialization `"AB"`: a partial state IS observable and
the previously-good file IS destroyed (no write-new-then-replace step). -/
theorem save_not_atomic_counterexample :
    saveCacheCrashState "X" "AB" 1 ≠ "X"
    ∧ saveCacheCrashState "X" "AB" 1 ≠ "AB" := by
  constructor <;> decide

/-- C5 amended: a save failure is surfaced to the caller of the update pass —
when the loop completes and `_save_cache` raises, `update_price_data`
propagates that exception; but the save is an in-place truncate-then-stream
rewrite, so the observable state after an interrupted save is a prefix of the
new serialization, independent of the previous file content (the old content
is destroyed the moment the file is opened). -/
theorem save_failure_surfaced (fetch : String → String → String → Option Ser)
    (cb : Option (Nat → Nat → String → Except PyErr Unit))
    (save : Cache → Except PyErr Unit) (allTickers : List String)
    (today incep : String) (force : Bool) (cache : Cache)
    (st : Cache × UpdateResults) (e : PyErr)
    (hloop : processTickers fetch cb allTickers.length today incep force
      (cache, ⟨[], [], []⟩) (allTickers.enumFrom 1) = .ok st)
    (hsave : save st.1 = .error e) :
    updatePriceData fetch cb save allTickers today incep force cache = .error e
    ∧ ∀ (old₁ old₂ new : String) (k : Nat),
        saveCacheCrashState old₁ new k = saveCacheCrashState old₂ new k := by
  constructor
  · rw [updatePriceData, hloop]
    show (match save st.1 with
        | Except.error e => (Except.error e : Except PyErr (Cache × UpdateResults))
        | Except.ok _ => Except.ok st) = Except.error e
    rw [hsave]
  · intro old₁ old₂ new k
    rfl

/-- Witness for the amended C5 at a concrete input: one updated ticker, a
save that raises an I/O error; the pass returns the error. -/
theorem save_failure_surfaced_witness :
    updatePriceData (fun _ _ _ => some [("2025-11-01", (1:ℚ))]) none
      (fun _ => Except.error (.ioError "disk full")) ["A"]
      "2025-11-01" "2025-10-28" false [] = .error (.ioError "disk full") :=
  (save_failure_surfaced (fun _ _ _ => some [("2025-11-01", (1:ℚ))]) none
    (fun _ => Except.error (.ioError "disk full")) ["A"]
    "2025-11-01" "2025-10-28" false []
    ([("A", [("2025-11-01", (1:ℚ))])], ⟨["A"], [], []⟩) (.ioError "disk full")
    (by decide) rfl).1

/-! ## Theorems: sorting and lookup auxiliaries for the analytics -/

theorem mem_insertSorted {α : Type} (key : α → String) (p x : α) :
    ∀ l : List α, x ∈ insertSorted key p l ↔ x = p ∨ x ∈ l
  | [] => by simp [insertSorted]
  | q :: qs => by
      rw [insertSorted]
      by_cases h : strLe (key p) (key q) = true
      · rw [if_pos h]
        exact List.mem_cons
      · rw [if_neg h]
        simp only [List.mem_cons, mem_insertSorted key p x qs]
        tauto

theorem insertSorted_perm {α : Type} (key : α → String) (p : α) :
    ∀ l : List α, (insertSorted key p l).Perm (p :: l)
  | [] => List.Perm.refl _
  | q :: qs => by
      rw [insertSorted]
      by_cases h : strLe (key p) (key q) = true
      · rw [if_pos h]
      · rw [if_neg h]
        exact (List.Perm.cons q (insertSorted_perm key p qs)).trans
          (List.Perm.swap p q qs)

theorem sortByKey_perm {α : Type} (key : α → String) :
    ∀ l : List α, (sortByKey key l).Perm l
  | [] => List.Perm.refl _
  | p :: ps =>
      (insertSorted_perm key p (sortByKey key ps)).trans
        (List.Perm.cons p (sortByKey_perm key ps))

theorem insertSorted_pairwise {α : Type} (key : α → String) (p : α) :
    ∀ l : List α,
      List.Pairwise (fun a b => strLe (key a) (key b) = true) l →
      List.Pairwise (fun a b => strLe (key a) (key b) = true)
        (insertSorted key p l)
  | [], _ => List.pairwise_singleton _ _
  | q :: qs, h => by
      rw [insertSorted]
      by_cases hle : strLe (key p) (key q) = true
      · rw [if_pos hle]
        refine List.Pairwise.cons ?_ h
        intro x hx
        rcases List.mem_cons.mp hx with hxq | hxqs
        · rw [hxq]
          exact hle
        · exact strLe_trans hle (List.rel_of_pairwise_cons h hxqs)
      · rw [if_neg hle]
        refine List.Pairwise.cons ?_
          (insertSorted_pairwise key p qs h.of_cons)
        intro x hx
        rcases (mem_insertSorted key p x qs).mp hx with hxp | hxqs
        · rw [hxp]
          exact strLe_of_strLt (strLt_of_not_strLe hle)
        · exact List.rel_of_pairwise_cons h hxqs

theorem sortByKey_pairwise {α : Type} (key : α → String) :
    ∀ l : List α,
      List.Pairwise (fun a b => strLe (key a) (key b) = true) (sortByKey key l)
  | [] => List.Pairwise.nil
  | p :: ps => insertSorted_pairwise key p _ (sortByKey_pairwise key ps)

theorem lookupD_mem_keys {α : Type} :
    ∀ (m : List (String × α)) (d : String) (v : α),
      lookupD m d = some v → d ∈ m.map Prod.fst
  | [], _, _ => by intro h; cases h
  | p :: ps, d, v => by
      intro h
      rw [lookupD] at h
      by_cases hpd : p.1 = d
      · simp [← hpd]
      · rw [if_neg hpd] at h
        simp only [List.map_cons, List.mem_cons]
        exact Or.inr (lookupD_mem_keys ps d v h)

theorem lookupD_isSome_of_mem_keys {α : Type} :
    ∀ (m : List (String × α)) (d : String),
      d ∈ m.map Prod.fst → (lookupD m d).isSome = true
  | [], _ => by intro h; simp at h
  | p :: ps, d => by
      intro h
      rw [lookupD]
      by_cases hpd : p.1 = d
      · rw [if_pos hpd]; rfl
      · rw [if_neg hpd]
        simp only [List.map_cons, List.mem_cons] at h
        rcases h with h | h
        · exact absurd h.symm hpd
        · exact lookupD_isSome_of_mem_keys ps d h

theorem mean0_of_all_zero {l : List ℚ} (h : ∀ x ∈ l, x = 0) : mean0 l = 0 := by
  rw [mean0]
  by_cases hl : l = []
  · rw [if_pos hl]
  · rw [if_neg hl]
    rw [List.sum_eq_zero h]
    exact zero_div _

/-! ## Theorems: position reporting (claim C8) -/

/-- C8 amended: `calculate_position_returns` excludes a ticker exactly when
its FULL cached series has fewer than 2 points or its inception-window
restriction is empty; the `< 2` guard runs before the inception filter, so a
ticker with at least 2 cached points of which exactly one lies in the window
is still reported (with a zero return computed from that single point). -/
theorem position_exclusion (cache : Cache) (incep : String)
    (capital posSize : ℚ) (isLong : Bool) (t : String) :
    positionFor cache incep capital posSize isLong t = none
    ↔ ((getPriceSeries cache t).length < 2
        ∨ (getPriceSeries cache t).filter (fun p => strLe incep p.1) = []) := by
  rw [positionFor]
  by_cases h2 : (getPriceSeries cache t).length < 2
  · simp [h2]
  · rw [if_neg h2]
    rcases hw : (getPriceSeries cache t).filter (fun p => strLe incep p.1)
      with _ | ⟨p0, rest⟩
    · simp [hw, h2]
    · simp [hw, h2]

/-- C8 counterexample: ticker X has two cached points, 2025-10-01 and
2025-11-01, but only the latter is on/after the inception date 2025-10-28:
the in-window series has a single point, yet the position list still reports
X instead of excluding it. -/
theorem position_single_inwindow_counterexample :
    (calculatePositionReturns
        [("X", [("2025-10-01", (10:ℚ)), ("2025-11-01", (20:ℚ))])]
        "2025-10-28" 100000 (1/100) ["X"] []).map Position.ticker = ["X"] := by
  simp +decide [calculatePositionReturns, positionFor, getPriceSeries,
    lookupD, sortByKey, insertSorted, strLe, strLt, lexLt]

/-! ## Theorems: the end-to-end scenario (claim C1) -/

/-- C1: on the spec's two-ticker scenario (A long with prices 100, 110, 121;
B short with prices 50, 45, 40; inception = day 1; capital 100000) the
per-date figures match the claim — day-2 long and short averages +10% with
combined +10%, day-3 long +21%, short +20%, combined +20.5% — but the day-3
portfolio value is `InitialCapital × 1.3255 = 132550`, NOT
`InitialCapital × 1.205`: line 347 compounds the per-date combined returns,
which are already measured from inception (lines 312/324), double-counting
growth.  The cumulative factor is `1 × 1.1 × 1.205 = 1.3255`. -/
theorem scenario_timeseries :
    portfolioTimeseries
      [("A", [("2025-11-03", (100:ℚ)), ("2025-11-04", 110), ("2025-11-05", 121)]),
       ("B", [("2025-11-03", (50:ℚ)), ("2025-11-04", 45), ("2025-11-05", 40)])]
      ["A"] ["B"] "^GSPC" "^RUA" "2025-11-03" 100000
    = [(⟨"2025-11-03", 0, 0, 0⟩, 0, 100000),
       (⟨"2025-11-04", 1/10, 1/10, 1/10⟩, 1/10, 110000),
       (⟨"2025-11-05", 21/100, 1/5, 41/200⟩, 651/2000, 132550)]
    ∧ (132550 : ℚ) ≠ 100000 * (1 + 205/1000) := by
  constructor
  · simp +decide [portfolioTimeseries, portfolioRows, allDates, rowOn, retOn,
      getPriceSeries, lookupD, sortByKey, insertSorted, mean0, cumSeries,
      strLe, strLt, lexLt]
    norm_num
  · norm_num

/-! ## Theorems: benchmark forward-fill (claim C9) -/

/-- Fill positions: at a calendar date with no benchmark entry the joined
column carries the running value — the fold over the earlier calendar
dates. -/
theorem ffill_lookup (rets : Ser) :
    ∀ (pre : List String) (seed : Option ℚ) (post : List String) (d : String),
      d ∉ pre → lookupD rets d = none →
      lookupD (ffillOn rets seed (pre ++ d :: post)) d
        = some (pre.foldl (fun acc e =>
            match lookupD rets e with
            | some x => some x
            | none => acc) seed)
  | [], seed, post, d => by
      intro _ hnone
      rw [List.nil_append, ffillOn, hnone]
      simp [lookupD]
  | q :: pre, seed, post, d => by
      intro hpre hnone
      have hqd : q ≠ d := by
        intro h
        exact hpre (by rw [h]; exact List.mem_cons_self _ _)
      rw [List.cons_append, ffillOn]
      show lookupD ((q, match lookupD rets q with
          | some x => some x
          | none => seed) :: ffillOn rets (match lookupD rets q with
          | some x => some x
          | none => seed) (pre ++ d :: post)) d = _
      rw [lookupD, if_neg hqd]
      rw [ffill_lookup rets pre _ post d
        (fun h => hpre (List.mem_cons_of_mem _ h)) hnone]
      rw [List.foldl_cons]

theorem unionFold_mem (cache : Cache) (d : String) :
    ∀ (ts : List String) (acc : List String),
      d ∈ ts.foldl (fun acc t =>
          match lookupD cache t with
          | some ps => acc ++ ps.map Prod.fst
          | none => acc) acc
      ↔ d ∈ acc ∨ ∃ t ∈ ts, ∃ ps, lookupD cache t = some ps
          ∧ d ∈ ps.map Prod.fst
  | [], acc => by simp
  | t :: ts, acc => by
      rw [List.foldl_cons, unionFold_mem cache d ts]
      rcases hl : lookupD cache t with _ | ps
      · constructor
        · rintro (hacc | htail)
          · exact Or.inl hacc
          · obtain ⟨t', ht', hrest⟩ := htail
            exact Or.inr ⟨t', List.mem_cons_of_mem _ ht', hrest⟩
        · rintro (hacc | ⟨t', ht', ps', hl', hd'⟩)
          · exact Or.inl hacc
          · rcases List.mem_cons.mp ht' with h | h
            · rw [h] at hl'
              rw [hl'] at hl
              cases hl
            · exact Or.inr ⟨t', h, ps', hl', hd'⟩
      · constructor
        · rintro (hacc | htail)
          · rcases List.mem_append.mp hacc with h | h
            · exact Or.inl h
            · exact Or.inr ⟨t, List.mem_cons_self _ _, ps, hl, h⟩
          · obtain ⟨t', ht', hrest⟩ := htail
            exact Or.inr ⟨t', List.mem_cons_of_mem _ ht', hrest⟩
        · rintro (hacc | ⟨t', ht', ps', hl', hd'⟩)
          · exact Or.inl (List.mem_append.mpr (Or.inl hacc))
          · rcases List.mem_cons.mp ht' with h | h
            · rw [h] at hl'
              rw [hl'] at hl
              injection hl with hps
              exact Or.inl (List.mem_append.mpr (Or.inr (hps ▸ hd')))
            · exact Or.inr ⟨t', h, ps', hl', hd'⟩

theorem mem_allDates {cache : Cache} {allT : List String} {incep d : String} :
    d ∈ allDates cache allT incep
    ↔ strLe incep d = true ∧ ∃ t ∈ allT, ∃ ps, lookupD cache t = some ps
        ∧ d ∈ ps.map Prod.fst := by
  rw [allDates, (sortByKey_perm id _).mem_iff, List.mem_filter,
    List.mem_dedup, unionFold_mem cache d allT []]
  simp only [List.not_mem_nil, false_or]
  exact and_comm

theorem allDates_nodup (cache : Cache) (allT : List String) (incep : String) :
    (allDates cache allT incep).Nodup := by
  rw [allDates]
  exact (sortByKey_perm id _).nodup_iff.mpr
    ((List.nodup_dedup _).filter _)

theorem allDates_sorted_lt (cache : Cache) (allT : List String)
    (incep : String) :
    List.Pairwise (fun a b => strLt a b = true) (allDates cache allT incep) := by
  have hle := sortByKey_pairwise (α := String) id
    (((allT.foldl (fun acc t =>
        match lookupD cache t with
        | some ps => acc ++ ps.map Prod.fst
        | none => acc) []).dedup).filter (fun d => strLe incep d))
  have hnd := allDates_nodup cache allT incep
  rw [allDates] at hnd ⊢
  have := hle.and hnd
  exact this.imp (fun hab => strLt_of_strLe_ne hab.1 hab.2)

theorem lookupD_eq_getPriceSeries {cache : Cache} {t : String} {ps : Ser}
    (h : lookupD cache t = some ps) :
    getPriceSeries cache t = sortByKey Prod.fst ps := by
  rw [getPriceSeries, h]

/-- A in-window rebased return on date `d` certifies that `d` is one of the
ticker's cached dates on or after inception. -/
theorem retOn_some_date_facts {cache : Cache} {incep t d : String} {r' : ℚ}
    (h : retOn cache incep t d = some r') :
    ∃ ps, lookupD cache t = some ps ∧ d ∈ ps.map Prod.fst
      ∧ strLe incep d = true := by
  rw [retOn] at h
  rcases hw : (getPriceSeries cache t).filter (fun p => strLe incep p.1)
    with _ | ⟨p0, w⟩
  · rw [hw] at h; cases h
  · rw [hw] at h
    have h' : (match lookupD (p0 :: w) d with
        | none => none
        | some pd => some (pd / p0.2 - 1)) = some r' := h
    rcases hl : lookupD (p0 :: w) d with _ | pd
    · rw [hl] at h'; cases h'
    · have hdk : d ∈ (p0 :: w).map Prod.fst := lookupD_mem_keys _ d pd hl
      rcases hups : lookupD cache t with _ | ps
      · rw [getPriceSeries, hups] at hw
        cases hw
      · rcases List.mem_map.mp hdk with ⟨q, hq, hq1⟩
        have hqf : q ∈ (getPriceSeries cache t).filter
            (fun p => strLe incep p.1) := by
          rw [hw]
          exact hq
        have h2 := List.mem_filter.mp hqf
        have hqs : q ∈ ps := by
          have := h2.1
          rw [lookupD_eq_getPriceSeries hups] at this
          exact (sortByKey_perm Prod.fst ps).mem_iff.mp this
        refine ⟨ps, rfl, ?_, ?_⟩
        · exact hq1 ▸ List.mem_map_of_mem Prod.fst hqs
        · have h3 := h2.2
          rw [hq1] at h3
          exact h3

/-- A date with a portfolio row has a contributing long or short ticker
priced on it in-window. -/
theorem rowOn_isSome_facts {cache : Cache} {incep : String}
    {longs shorts : List String} {d : String}
    (h : (rowOn cache incep longs shorts d).isSome = true) :
    ∃ t ∈ longs ++ shorts, ∃ ps, lookupD cache t = some ps
      ∧ d ∈ ps.map Prod.fst ∧ strLe incep d = true := by
  rw [rowOn] at h
  by_cases hemp : (longs.filterMap (fun t => retOn cache incep t d) = []
      ∧ shorts.filterMap (fun t => (retOn cache incep t d).map Neg.neg) = [])
  · rw [if_pos hemp] at h
    cases h
  · rcases not_and_or.mp hemp with hls | hss
    · rcases List.exists_mem_of_ne_nil _ hls with ⟨y, hy⟩
      obtain ⟨t, ht, hret⟩ := List.mem_filterMap.mp hy
      obtain ⟨ps, hps, hd, hin⟩ := retOn_some_date_facts hret
      exact ⟨t, List.mem_append.mpr (Or.inl ht), ps, hps, hd, hin⟩
    · rcases List.exists_mem_of_ne_nil _ hss with ⟨y, hy⟩
      obtain ⟨t, ht, hret⟩ := List.mem_filterMap.mp hy
      rcases hr : retOn cache incep t d with _ | r'
      · rw [hr] at hret; cases hret
      · obtain ⟨ps, hps, hd, hin⟩ := retOn_some_date_facts hr
        exact ⟨t, List.mem_append.mpr (Or.inr ht), ps, hps, hd, hin⟩

theorem sorted_lt_ext :
    ∀ (l₁ l₂ : List String),
      List.Pairwise (fun a b => strLt a b = true) l₁ →
      List.Pairwise (fun a b => strLt a b = true) l₂ →
      (∀ x, x ∈ l₁ ↔ x ∈ l₂) → l₁ = l₂
  | [], [], _, _, _ => rfl
  | [], b :: l₂, _, _, hiff => absurd ((hiff b).mpr (List.mem_cons_self _ _))
      (List.not_mem_nil b)
  | a :: l₁, [], _, _, hiff => absurd ((hiff a).mp (List.mem_cons_self _ _))
      (List.not_mem_nil a)
  | a :: l₁, b :: l₂, h₁, h₂, hiff => by
      have hab : a = b := by
        rcases List.mem_cons.mp ((hiff a).mp (List.mem_cons_self _ _)) with h | h
        · exact h
        · rcases List.mem_cons.mp ((hiff b).mpr (List.mem_cons_self _ _)) with h' | h'
          · exact h'.symm
          · have hba := List.rel_of_pairwise_cons h₂ h
            have hab := List.rel_of_pairwise_cons h₁ h'
            have := strLt_asymm hab
            rw [this] at hba
            cases hba
      subst hab
      have htails : ∀ x, x ∈ l₁ ↔ x ∈ l₂ := by
        intro x
        constructor
        · intro hx
          rcases List.mem_cons.mp ((hiff x).mp (List.mem_cons_of_mem _ hx)) with h | h
          · rw [h] at hx
            have := List.rel_of_pairwise_cons h₁ hx
            rw [strLt_irrefl] at this
            cases this
          · exact h
        · intro hx
          rcases List.mem_cons.mp ((hiff x).mpr (List.mem_cons_of_mem _ hx)) with h | h
          · rw [h] at hx
            have := List.rel_of_pairwise_cons h₂ hx
            rw [strLt_irrefl] at this
            cases this
          · exact h
      rw [sorted_lt_ext l₁ l₂ h₁.of_cons h₂.of_cons htails]

theorem filterMap_filter_isSome {β : Type} (f : String → Option β) :
    ∀ l : List String,
      l.filterMap f = (l.filter (fun d => (f d).isSome)).filterMap f
  | [] => rfl
  | d :: l => by
      rw [List.filterMap_cons, List.filter_cons]
      rcases hf : f d with _ | b
      · simp only [Option.isSome_none, Bool.false_eq_true, if_false]
        exact filterMap_filter_isSome f l
      · simp only [Option.isSome_some, if_true]
        rw [List.filterMap_cons, hf, ← filterMap_filter_isSome f l]

theorem retOn_cache_congr {cache cache' : Cache} {incep t d : String}
    (hag : lookupD cache' t = lookupD cache t) :
    retOn cache' incep t d = retOn cache incep t d := by
  rw [retOn, retOn, getPriceSeries, getPriceSeries, hag]

theorem rowOn_cache_congr {cache cache' : Cache} {incep : String}
    {longs shorts : List String}
    (hag : ∀ t ∈ longs ++ shorts, lookupD cache' t = lookupD cache t)
    (d : String) :
    rowOn cache' incep longs shorts d = rowOn cache incep longs shorts d := by
  rw [rowOn, rowOn]
  have hls : longs.filterMap (fun t => retOn cache' incep t d)
      = longs.filterMap (fun t => retOn cache incep t d) :=
    List.filterMap_congr (fun t ht =>
      retOn_cache_congr (hag t (List.mem_append.mpr (Or.inl ht))))
  have hss : shorts.filterMap (fun t => (retOn cache' incep t d).map Neg.neg)
      = shorts.filterMap (fun t => (retOn cache incep t d).map Neg.neg) :=
    List.filterMap_congr (fun t ht => by
      rw [retOn_cache_congr (hag t (List.mem_append.mpr (Or.inr ht)))])
  rw [hls, hss]

/-- The portfolio rows depend only on the long and short tickers' cached
series: two stores agreeing there (but free to differ on the benchmark or any
other ticker) produce identical rows — benchmark data never alters the
combined portfolio return. -/
theorem portfolioRows_frame (cache cache' : Cache) (longs shorts : List String)
    (sp500 russell incep : String)
    (hag : ∀ t ∈ longs ++ shorts, lookupD cache' t = lookupD cache t) :
    portfolioRows cache' longs shorts sp500 russell incep
      = portfolioRows cache longs shorts sp500 russell incep := by
  rw [portfolioRows, portfolioRows]
  rw [show (rowOn cache' incep longs shorts) = (rowOn cache incep longs shorts)
    from funext (rowOn_cache_congr hag)]
  rw [filterMap_filter_isSome (rowOn cache incep longs shorts)
      (allDates cache' (longs ++ shorts ++ [sp500, russell]) incep),
    filterMap_filter_isSome (rowOn cache incep longs shorts)
      (allDates cache (longs ++ shorts ++ [sp500, russell]) incep)]
  congr 1
  apply sorted_lt_ext
  · exact (allDates_sorted_lt cache' _ incep).filter _
  · exact (allDates_sorted_lt cache _ incep).filter _
  · intro x
    simp only [List.mem_filter]
    constructor
    · rintro ⟨_, hsome⟩
      refine ⟨?_, hsome⟩
      obtain ⟨t, ht, ps, hps, hd, hin⟩ := rowOn_isSome_facts hsome
      exact mem_allDates.mpr ⟨hin, t, List.mem_append.mpr (Or.inl ht), ps, hps, hd⟩
    · rintro ⟨_, hsome⟩
      refine ⟨?_, hsome⟩
      obtain ⟨t, ht, ps, hps, hd, hin⟩ := rowOn_isSome_facts hsome
      refine mem_allDates.mpr ⟨hin, t, List.mem_append.mpr (Or.inl ht), ps, ?_, hd⟩
      rw [hag t ht]
      exact hps

/-- C9 amended: when a benchmark has no entry on a portfolio date `d`, the
joined-and-forward-filled column reports the value carried from the earlier
portfolio dates — the benchmark value at the nearest prior OBSERVATION date
that has one (`nearestPrior` scans the earlier portfolio dates and keeps the
last hit); benchmark prices on dates that produce no portfolio row are
invisible to the fill (see the counterexample).  And benchmark data never
alters the combined portfolio returns: any store agreeing with `cache` on the
long and short tickers yields identical rows. -/
theorem benchmark_ffill_carries (cache : Cache) (longs shorts : List String)
    (sp500 russell incep bench : String) (pre post : List String) (d : String)
    (hbs : benchSeries cache incep bench ≠ [])
    (hdates : (portfolioRows cache longs shorts sp500 russell incep).map
        (·.date) = pre ++ d :: post)
    (hpre : d ∉ pre)
    (hnone : lookupD (benchSeries cache incep bench) d = none) :
    lookupD (benchColumn cache incep bench
        (portfolioRows cache longs shorts sp500 russell incep)) d
      = some (nearestPrior (benchSeries cache incep bench) pre)
    ∧ ∀ cache' : Cache,
        (∀ t ∈ longs ++ shorts, lookupD cache' t = lookupD cache t) →
        portfolioRows cache' longs shorts sp500 russell incep
          = portfolioRows cache longs shorts sp500 russell incep := by
  constructor
  · rw [benchColumn, if_neg hbs, hdates]
    exact ffill_lookup _ pre none post d hpre hnone
  · intro cache' hag
    exact portfolioRows_frame cache cache' longs shorts sp500 russell incep hag

/-- Witness for the amended C9 at a concrete input: portfolio dates are
11-01 and 11-03, the benchmark has entries on 11-01 and 11-02 only; the value
reported on 11-03 is the one carried from the prior observation date
11-01. -/
theorem benchmark_ffill_carries_witness :
    lookupD (benchColumn
        [("L", [("2025-11-01", (10:ℚ)), ("2025-11-03", 10)]),
         ("B", [("2025-11-01", (100:ℚ)), ("2025-11-02", 150)])]
        "2025-11-01" "B"
        (portfolioRows
          [("L", [("2025-11-01", (10:ℚ)), ("2025-11-03", 10)]),
           ("B", [("2025-11-01", (100:ℚ)), ("2025-11-02", 150)])]
          ["L"] [] "B" "R" "2025-11-01")) "2025-11-03"
      = some (nearestPrior (benchSeries
          [("L", [("2025-11-01", (10:ℚ)), ("2025-11-03", 10)]),
           ("B", [("2025-11-01", (100:ℚ)), ("2025-11-02", 150)])]
          "2025-11-01" "B") ["2025-11-01"]) :=
  (benchmark_ffill_carries
    [("L", [("2025-11-01", (10:ℚ)), ("2025-11-03", 10)]),
     ("B", [("2025-11-01", (100:ℚ)), ("2025-11-02", 150)])]
    ["L"] [] "B" "R" "2025-11-01" "B" ["2025-11-01"] [] "2025-11-03"
    (by decide) (by decide) (by decide) (by decide)).1

/-- C9 counterexample: the benchmark `B` has prices on 2025-11-01 (rebased
return 0) and 2025-11-02 (rebased return 1/2), but 2025-11-02 produces no
portfolio row (no long/short ticker is priced there).  On 2025-11-03 — an
observation date where the benchmark has no price — the nearest prior date
with a benchmark price is 2025-11-02, whose rebased return is 1/2; the code
reports 0, the value joined at 2025-11-01, because the left-join onto the
row calendar drops 2025-11-02 before the forward fill. -/
theorem benchmark_ffill_counterexample :
    lookupD (benchColumn
        [("L", [("2025-11-01", (10:ℚ)), ("2025-11-03", 10)]),
         ("B", [("2025-11-01", (100:ℚ)), ("2025-11-02", 150)])]
        "2025-11-01" "B"
        (portfolioRows
          [("L", [("2025-11-01", (10:ℚ)), ("2025-11-03", 10)]),
           ("B", [("2025-11-01", (100:ℚ)), ("2025-11-02", 150)])]
          ["L"] [] "B" "R" "2025-11-01")) "2025-11-03"
      = some (some 0)
    ∧ lookupD (benchSeries
        [("L", [("2025-11-01", (10:ℚ)), ("2025-11-03", 10)]),
         ("B", [("2025-11-01", (100:ℚ)), ("2025-11-02", 150)])]
        "2025-11-01" "B") "2025-11-02" = some (1/2)
    ∧ (some (0:ℚ) : Option ℚ) ≠ some (1/2) := by
  refine ⟨?_, ?_, by norm_num⟩
  · simp +decide [benchColumn, benchSeries, ffillOn, portfolioRows, allDates,
      rowOn, retOn, getPriceSeries, lookupD, sortByKey, insertSorted, mean0,
      strLe, strLt, lexLt]
  · simp +decide [benchSeries, getPriceSeries, lookupD, sortByKey,
      insertSorted, strLe, strLt, lexLt]
    norm_num

/-! ## Theorems: drawdown (claim C10) -/

theorem allDates_sorted_le (cache : Cache) (allT : List String)
    (incep : String) :
    List.Pairwise (fun a b => strLe a b = true) (allDates cache allT incep) := by
  rw [allDates]
  exact sortByKey_pairwise id _

/-- The first produced element of a `filterMap` over a sorted calendar comes
from a date no later than any date the function accepts. -/
theorem filterMap_head_min {β : Type} (f : String → Option β) :
    ∀ (l : List String),
      List.Pairwise (fun a b => strLe a b = true) l →
      ∀ (r : β) (rs : List β), l.filterMap f = r :: rs →
      ∃ e, e ∈ l ∧ f e = some r
        ∧ ∀ d ∈ l, (f d).isSome = true → strLe e d = true
  | [], _, r, rs => by
      intro h
      rw [List.filterMap_nil] at h
      cases h
  | d :: l, hp, r, rs => by
      intro h
      rw [List.filterMap_cons] at h
      rcases hf : f d with _ | b
      · rw [hf] at h
        obtain ⟨e, hel, hfe, hmin⟩ := filterMap_head_min f l hp.of_cons r rs h
        refine ⟨e, List.mem_cons_of_mem _ hel, hfe, ?_⟩
        intro d' hd' hsome
        rcases List.mem_cons.mp hd' with hd'd | hd'l
        · rw [hd'd, hf] at hsome
          simp at hsome
        · exact hmin d' hd'l hsome
      · rw [hf] at h
        injection h with hb _
        refine ⟨d, List.mem_cons_self _ _, by rw [hf, hb], ?_⟩
        intro d' hd' _
        rcases List.mem_cons.mp hd' with hd'd | hd'l
        · rw [hd'd]
          exact strLe_refl _
        · exact List.rel_of_pairwise_cons hp hd'l

/-- Structure of a successful in-window return: the window is nonempty and
the contributing date is on or after the window's first date. -/
theorem retOn_window_facts {cache : Cache} {incep t d : String} {r' : ℚ}
    (h : retOn cache incep t d = some r') :
    ∃ p0 w pd,
      (getPriceSeries cache t).filter (fun p => strLe incep p.1) = p0 :: w
      ∧ lookupD (p0 :: w) d = some pd ∧ r' = pd / p0.2 - 1
      ∧ strLe p0.1 d = true := by
  rw [retOn] at h
  rcases hw : (getPriceSeries cache t).filter (fun p => strLe incep p.1)
    with _ | ⟨p0, w⟩
  · rw [hw] at h; cases h
  · rw [hw] at h
    have h' : (match lookupD (p0 :: w) d with
        | none => none
        | some pd => some (pd / p0.2 - 1)) = some r' := h
    rcases hl : lookupD (p0 :: w) d with _ | pd
    · rw [hl] at h'; cases h'
    · rw [hl] at h'
      injection h' with hr'
      have hps : ∃ ps, lookupD cache t = some ps := by
        rcases hups : lookupD cache t with _ | ps
        · rw [getPriceSeries, hups] at hw
          simp at hw
        · exact ⟨ps, rfl⟩
      obtain ⟨ps, hups⟩ := hps
      have hsorted : List.Pairwise (fun a b => strLe a.1 b.1 = true) (p0 :: w) := by
        rw [← hw, lookupD_eq_getPriceSeries hups]
        exact (sortByKey_pairwise Prod.fst ps).filter _
      have hdk : d ∈ (p0 :: w).map Prod.fst := lookupD_mem_keys _ d pd hl
      have hp0led : strLe p0.1 d = true := by
        rcases List.mem_map.mp hdk with ⟨q, hq, hq1⟩
        rcases List.mem_cons.mp hq with hq0 | hqw
        · rw [← hq1, hq0]
          exact strLe_refl _
        · rw [← hq1]
          exact List.rel_of_pairwise_cons hsorted hqw
      exact ⟨p0, w, pd, hw, hl, hr'.symm, hp0led⟩

/-- On the first date of its own in-window series a ticker's rebased return
exists and equals `p/p − 1`. -/
theorem retOn_first_date {cache : Cache} {incep t : String} {p0 : String × ℚ}
    {w : Ser}
    (hw : (getPriceSeries cache t).filter (fun p => strLe incep p.1) = p0 :: w) :
    retOn cache incep t p0.1 = some (p0.2 / p0.2 - 1) := by
  rw [retOn, hw]
  show (match lookupD (p0 :: w) p0.1 with
    | none => none
    | some pd => some (pd / p0.2 - 1)) = some (p0.2 / p0.2 - 1)
  have : lookupD (p0 :: w) p0.1 = some p0.2 := by simp [lookupD]
  rw [this]

/-- With positive cached prices, the first portfolio row's combined return is
exactly zero: every ticker contributing on the first observation date has
that date as its own first in-window date. -/
theorem portfolioRows_head_zero (cache : Cache) (longs shorts : List String)
    (sp500 russell incep : String)
    (hpos : ∀ t ps, lookupD cache t = some ps → ∀ p ∈ ps, 0 < p.2)
    (r : TimePoint) (rs : List TimePoint)
    (hrows : portfolioRows cache longs shorts sp500 russell incep = r :: rs) :
    r.portfolioReturn = 0 := by
  rw [portfolioRows] at hrows
  obtain ⟨e, hel, hfe, hmin⟩ := filterMap_head_min
    (rowOn cache incep longs shorts) _
    (allDates_sorted_le cache (longs ++ shorts ++ [sp500, russell]) incep)
    r rs hrows
  have hzero : ∀ t, t ∈ longs ++ shorts → ∀ r', retOn cache incep t e = some r'
      → r' = 0 := by
    intro t ht r' hret
    obtain ⟨p0, w, pd, hw, hl, hr', hp0le⟩ := retOn_window_facts hret
    have hps : ∃ ps, lookupD cache t = some ps := by
      rcases hups : lookupD cache t with _ | ps
      · rw [getPriceSeries, hups] at hw
        simp at hw
      · exact ⟨ps, rfl⟩
    obtain ⟨ps, hups⟩ := hps
    have hp0f : p0 ∈ (getPriceSeries cache t).filter (fun p => strLe incep p.1) := by
      rw [hw]
      exact List.mem_cons_self _ _
    have hp0s := List.mem_filter.mp hp0f
    have hp0ps : p0 ∈ ps := by
      have h1 := hp0s.1
      rw [lookupD_eq_getPriceSeries hups] at h1
      exact (sortByKey_perm Prod.fst ps).mem_iff.mp h1
    have hp0dates : p0.1 ∈ allDates cache (longs ++ shorts ++ [sp500, russell]) incep :=
      mem_allDates.mpr ⟨hp0s.2, t, List.mem_append.mpr (Or.inl ht), ps, hups,
        List.mem_map_of_mem Prod.fst hp0ps⟩
    have hret0 : retOn cache incep t p0.1 = some (p0.2 / p0.2 - 1) :=
      retOn_first_date hw
    have hrowSome : (rowOn cache incep longs shorts p0.1).isSome = true := by
      rw [rowOn]
      rcases List.mem_append.mp ht with hlong | hshort
      · have hmemf : (p0.2 / p0.2 - 1)
            ∈ longs.filterMap (fun t' => retOn cache incep t' p0.1) :=
          List.mem_filterMap.mpr ⟨t, hlong, hret0⟩
        have hne := List.ne_nil_of_mem hmemf
        rw [if_neg (fun hcon => hne hcon.1)]
        rfl
      · have hmemf : (-(p0.2 / p0.2 - 1))
            ∈ shorts.filterMap (fun t' => (retOn cache incep t' p0.1).map Neg.neg) :=
          List.mem_filterMap.mpr ⟨t, hshort, by rw [hret0]; rfl⟩
        have hne := List.ne_nil_of_mem hmemf
        rw [if_neg (fun hcon => hne hcon.2)]
        rfl
    have hle1 : strLe e p0.1 = true := hmin p0.1 hp0dates hrowSome
    have he : e = p0.1 := strLe_antisymm hle1 hp0le
    rw [he] at hl
    have hhead : lookupD (p0 :: w) p0.1 = some p0.2 := by simp [lookupD]
    rw [hhead] at hl
    injection hl with hpd
    have hpos0 : 0 < p0.2 := hpos t ps hups p0 hp0ps
    rw [hr', ← hpd, div_self (ne_of_gt hpos0)]
    norm_num
  rw [rowOn] at hfe
  by_cases hemp : (longs.filterMap (fun t => retOn cache incep t e) = []
      ∧ shorts.filterMap (fun t => (retOn cache incep t e).map Neg.neg) = [])
  · rw [if_pos hemp] at hfe
    cases hfe
  · rw [if_neg hemp] at hfe
    injection hfe with hr
    have hls0 : ∀ x ∈ longs.filterMap (fun t => retOn cache incep t e), x = 0 := by
      intro x hx
      obtain ⟨t, ht, hret⟩ := List.mem_filterMap.mp hx
      exact hzero t (List.mem_append.mpr (Or.inl ht)) x hret
    have hss0 : ∀ x ∈ shorts.filterMap
        (fun t => (retOn cache incep t e).map Neg.neg), x = 0 := by
      intro x hx
      obtain ⟨t, ht, hret⟩ := List.mem_filterMap.mp hx
      rcases hro : retOn cache incep t e with _ | r''
      · rw [hro] at hret; cases hret
      · rw [hro] at hret
        injection hret with hx'
        have := hzero t (List.mem_append.mpr (Or.inr ht)) r'' hro
        rw [← hx', this]
        norm_num
    rw [← hr]
    show (mean0 (longs.filterMap (fun t => retOn cache incep t e))
      + mean0 (shorts.filterMap (fun t => (retOn cache incep t e).map Neg.neg))) / 2 = 0
    rw [mean0_of_all_zero hls0, mean0_of_all_zero hss0]
    norm_num

theorem foldl_min_le_init : ∀ (l : List ℚ) (a : ℚ), l.foldl min a ≤ a
  | [], a => le_refl a
  | x :: xs, a =>
      le_trans (foldl_min_le_init xs (min a x)) (min_le_left a x)

theorem zip_dd_nonpos :
    ∀ (l : List ℚ) (m : ℚ), 0 < m →
      ∀ x ∈ List.zipWith (fun c mm => (c - mm) / mm) l (runningMaxFrom m l),
        x ≤ 0
  | [], m => by
      intro _ x hx
      simp [runningMaxFrom] at hx
  | c :: cs, m => by
      intro hm x hx
      rw [runningMaxFrom, List.zipWith_cons_cons] at hx
      rcases List.mem_cons.mp hx with hx0 | hxtail
      · rw [hx0]
        rw [div_nonpos_iff]
        right
        exact ⟨sub_nonpos.mpr (le_max_right m c),
          le_of_lt (lt_of_lt_of_le hm (le_max_left m c))⟩
      · exact zip_dd_nonpos cs (max m c)
          (lt_of_lt_of_le hm (le_max_left m c)) x hxtail

/-- C10: whenever the metrics computation returns a non-empty result (the
time series has at least one row) over a store of positive prices, the
reported `max_drawdown` is at most 0, the drawdown series is pointwise at
most 0, and its value at the first observation date is exactly 0. -/
theorem max_drawdown_nonpos (cache : Cache) (longs shorts : List String)
    (sp500 russell incep : String)
    (hpos : ∀ t ps, lookupD cache t = some ps → ∀ p ∈ ps, 0 < p.2)
    (r : TimePoint) (rs : List TimePoint)
    (hrows : portfolioRows cache longs shorts sp500 russell incep = r :: rs) :
    (∃ v, calculateMetricsMaxDrawdown cache longs shorts sp500 russell incep
        = some v ∧ v ≤ 0)
    ∧ (∀ x ∈ drawdownSeries (r :: rs), x ≤ 0)
    ∧ (drawdownSeries (r :: rs)).head? = some 0 := by
  have hr0 : r.portfolioReturn = 0 :=
    portfolioRows_head_zero cache longs shorts sp500 russell incep hpos r rs hrows
  have hc : (1:ℚ) * (1 + 0) = 1 := by norm_num
  have hdd : drawdownSeries (r :: rs)
      = 0 :: List.zipWith (fun c m => (c - m) / m)
          (cumProd 1 (rs.map (·.portfolioReturn)))
          (runningMaxFrom 1 (cumProd 1 (rs.map (·.portfolioReturn)))) := by
    rw [drawdownSeries, List.map_cons, hr0, cumProd, hc, runningMax,
      runningMaxFrom, max_self, List.zipWith_cons_cons]
    norm_num
  refine ⟨?_, ?_, ?_⟩
  · have hmd : calculateMetricsMaxDrawdown cache longs shorts sp500 russell incep
        = some ((List.zipWith (fun c m => (c - m) / m)
            (cumProd 1 (rs.map (·.portfolioReturn)))
            (runningMaxFrom 1 (cumProd 1 (rs.map (·.portfolioReturn))))).foldl
              min 0 * 100) := by
      rw [calculateMetricsMaxDrawdown, hrows]
      show (seriesMin (drawdownSeries (r :: rs))).map (· * 100) = _
      rw [hdd, seriesMin]
      rfl
    refine ⟨_, hmd, ?_⟩
    have h1 := foldl_min_le_init (List.zipWith (fun c m => (c - m) / m)
      (cumProd 1 (rs.map (·.portfolioReturn)))
      (runningMaxFrom 1 (cumProd 1 (rs.map (·.portfolioReturn))))) 0
    have h2 := mul_le_mul_of_nonneg_right h1 (by norm_num : (0:ℚ) ≤ 100)
    simpa using h2
  · intro x hx
    rw [hdd] at hx
    rcases List.mem_cons.mp hx with hx0 | hxtail
    · rw [hx0]
    · exact zip_dd_nonpos _ 1 (by norm_num) x hxtail
  · rw [hdd]
    rfl

/-- Witness for C10 at a concrete one-ticker store. -/
theorem max_drawdown_nonpos_witness :
    ∃ v, calculateMetricsMaxDrawdown
        [("A", [("2025-11-03", (100:ℚ)), ("2025-11-04", 110)])]
        ["A"] [] "^GSPC" "^RUA" "2025-11-03" = some v ∧ v ≤ 0 :=
  (max_drawdown_nonpos
    [("A", [("2025-11-03", (100:ℚ)), ("2025-11-04", 110)])]
    ["A"] [] "^GSPC" "^RUA" "2025-11-03"
    (by
      intro t ps hps p hp
      rcases hps' : lookupD [("A", [("2025-11-03", (100:ℚ)), ("2025-11-04", 110)])] t
        with _ | ps'
      · rw [hps'] at hps; cases hps
      · rw [hps'] at hps
        injection hps with hps2
        have : ps' = [("2025-11-03", (100:ℚ)), ("2025-11-04", 110)] := by
          rw [lookupD] at hps'
          by_cases ha : "A" = t
          · rw [if_pos ha] at hps'
            injection hps' with h
            exact h.symm
          · rw [if_neg ha, lookupD] at hps'
            cases hps'
        rw [← hps2, this] at hp
        rcases List.mem_cons.mp hp with h | h
        · rw [h]
          norm_num
        · rcases List.mem_cons.mp h with h2 | h2
          · rw [h2]
            norm_num
          · cases h2)
    ⟨"2025-11-03", 0, 0, 0⟩
    [⟨"2025-11-04", 1/10, 0, 1/20⟩]
    (by
      simp +decide [portfolioRows, allDates, rowOn, retOn, getPriceSeries,
        lookupD, sortByKey, insertSorted, mean0, strLe, strLt, lexLt]
      norm_num)).1
